import Mathlib

/-!
# Verification of the schema-form engine of `compliance-agent`

This file gives a shallow embedding of the schema-walking /
path-addressed-mutation / default-synthesis engine implemented in the
repository's `SchemaFormRenderer` component (the latest revision, the one
that also handles `ZodNumber` and `ZodLazy`), together with the Zod schema
values it is applied to (`ComplianceContentSchema` and its sub-schemas).

Modelling conventions:

* Documents are the plain JavaScript values the component manipulates.
  `JValue.undef` models `undefined`; array holes (which only arise from
  out-of-range index assignment) are represented as `undef` elements.
  Object and array property access is modelled as own-property access plus
  the `length` property of arrays; other prototype-inherited members are
  not modelled (the repository's schemas use plain field names that do not
  collide with them).  Numbers are modelled as integers: the repository's
  documents only contain integer ratings produced by `parseInt`.
* The engine itself is single-threaded and performs no I/O, so each
  handler is a pure function of its arguments.  The `JSON.parse(JSON.stringify …)`
  deep copy at the head of `handleValueChange` makes the value being
  mutated a fresh tree, so the in-place mutation of the copy is modelled
  by functional update; a separate heap model at the end of the file is
  used for the claims that are genuinely about mutation and aliasing.
* A `none` result of `handleValueChange` models "`onDataChange` is never
  invoked": both the `console.error` early returns and the (practically
  unreachable) exception on assigning an invalid array `length` publish
  no update.
-/

/-- A path segment: an object key (string) or an array index (number), as
in the component's `path: (string | number)[]`. -/
inductive Seg where
  | fld : String → Seg
  | idx : Nat → Seg
deriving Repr, DecidableEq

/-- JavaScript property-key coercion: a numeric key used on an object is
coerced to its decimal string. -/
def Seg.keyStr : Seg → String
  | .fld s => s
  | .idx n => toString n

/-- JavaScript-like document values.  `obj` holds own properties in
insertion order; `arr` holds the elements plus any expando (non-index)
own properties that JS allows setting on an array object. -/
inductive JValue where
  | undef : JValue
  | jnull : JValue
  | str : String → JValue
  | num : Int → JValue
  | obj : List (String × JValue) → JValue
  | arr : List JValue → List (String × JValue) → JValue
deriving Repr

/-- Own-property read on an ordered property list: first binding wins,
missing keys read as `undefined`. -/
def objGet : List (String × JValue) → String → JValue
  | [], _ => .undef
  | (k1, v1) :: rest, k => if k1 = k then v1 else objGet rest k

/-- Own-property read, distinguishing a present `undefined` value from an
absent key. -/
def objGetOpt : List (String × JValue) → String → Option JValue
  | [], _ => none
  | (k1, v1) :: rest, k => if k1 = k then some v1 else objGetOpt rest k

/-- JS property write on an ordered property list: an existing key is
updated in place, a new key is appended at the end. -/
def objSet : List (String × JValue) → String → JValue → List (String × JValue)
  | [], k, v => [(k, v)]
  | (k1, v1) :: rest, k, v =>
    if k1 = k then (k, v) :: rest else (k1, v1) :: objSet rest k v

/-- JS indexed write on an array: in-range indices are updated, an
out-of-range write extends the array, creating holes (read back as
`undefined`). -/
def arrSet (es : List JValue) (n : Nat) (v : JValue) : List JValue :=
  if n < es.length then es.set n v
  else es ++ List.replicate (n - es.length) .undef ++ [v]

/-- JS `array.length = n`: truncates, or extends with holes. -/
def arrResize (es : List JValue) (n : Nat) : List JValue :=
  if n ≤ es.length then es.take n
  else es ++ List.replicate (n - es.length) JValue.undef

/-- `typeof v === 'object' && v !== null`: only objects and arrays pass
the navigation checks of `handleValueChange`. -/
def isContainer : JValue → Bool
  | .obj _ => true
  | .arr _ _ => true
  | _ => false

/-- One step of the optional-chained read `acc?.[k]` used by the render
tree to fetch field data.  Strings expose `length` and single-character
indexing; missing properties and reads through `undefined`/`null` or
numbers give `undefined`. -/
def jsGet : JValue → Seg → JValue
  | .undef, _ => .undef
  | .jnull, _ => .undef
  | .str s, .idx n =>
    match s.data.get? n with
    | some c => .str (String.mk [c])
    | none => .undef
  | .str s, .fld k => if k = "length" then .num s.length else .undef
  | .num _, _ => .undef
  | .obj es, k => objGet es k.keyStr
  | .arr es _, .idx n => es.getD n .undef
  | .arr es props, .fld k =>
    if k = "length" then .num es.length else objGet props k

/-- The path-reduce accessor
`currentPath.reduce((acc, k) => acc?.[k], data)`: the engine's `get`. -/
def getPath (v : JValue) (p : List Seg) : JValue := p.foldl jsGet v

/-! `JSON.parse(JSON.stringify v)`, the deep copy taken at the head of
`handleValueChange`.  Properties whose value is `undefined` are dropped;
array holes and `undefined` elements serialize as `null`; expando
properties of arrays are dropped.  (A top-level `undefined` would make
`JSON.parse` throw in JS; the component only ever copies `fullData`,
which is an object, so that case is never reached and we let it map to
`undef`.) -/
mutual

def jsonCopy : JValue → JValue
  | .undef => .undef
  | .jnull => .jnull
  | .str s => .str s
  | .num n => .num n
  | .obj es => .obj (jsonFields es)
  | .arr es _ => .arr (jsonElems es) []

def jsonFields : List (String × JValue) → List (String × JValue)
  | [] => []
  | (k, v) :: rest =>
    match jsonCopy v with
    | .undef => jsonFields rest
    | v1 => (k, v1) :: jsonFields rest

def jsonElems : List JValue → List JValue
  | [] => []
  | v :: rest =>
    match jsonCopy v with
    | .undef => .jnull :: jsonElems rest
    | v1 => v1 :: jsonElems rest

end

/-- A document that survives a JSON round trip unchanged: it contains no
`undefined` values and no array expando properties. -/
def jsonNormal (v : JValue) : Prop := jsonCopy v = v

/-! ## Zod schema model

The closed set of Zod node shapes the renderer distinguishes
(`ZodString`, `ZodNumber`, `ZodArray`, `ZodObject`, `ZodDefault`,
`ZodLazy`), plus `ZodOptional` (which occurs in the repository's schemas
but is `not` unwrapped by `getBaseType`) and a catch-all for any other
Zod type, carrying its `_def.typeName`. -/

/-- One entry of a `ZodNumber`'s `_def.checks` array. -/
inductive ZCheck where
  | cmin : Int → ZCheck
  | cmax : Int → ZCheck
  | cother : ZCheck
deriving Repr, DecidableEq

/-- `checks.find(check => check.kind === 'min')`. -/
def findMinCheck : List ZCheck → Option Int
  | [] => none
  | .cmin v :: _ => some v
  | _ :: rest => findMinCheck rest

/-- `checks.find(check => check.kind === 'max')`. -/
def findMaxCheck : List ZCheck → Option Int
  | [] => none
  | .cmax v :: _ => some v
  | _ :: rest => findMaxCheck rest

/-- Zod schema nodes.  `zlazy name` models `z.lazy(() => S)` where the
getter reads the (possibly forward-declared) binding `name`; the binding
environment is the module scope in which the schemas are declared. -/
inductive Zod where
  | zstring : Zod
  | znumber : List ZCheck → Zod
  | zarray : Zod → Zod
  | zobject : List (String × Zod) → Zod
  | zdefault : Zod → Zod
  | zlazy : String → Zod
  | zoptional : Zod → Zod
  | zother : String → Zod
deriving Repr

/-- `_def.typeName` of a schema node. -/
def typeName : Zod → String
  | .zstring => "ZodString"
  | .znumber _ => "ZodNumber"
  | .zarray _ => "ZodArray"
  | .zobject _ => "ZodObject"
  | .zdefault _ => "ZodDefault"
  | .zlazy _ => "ZodLazy"
  | .zoptional _ => "ZodOptional"
  | .zother n => n

def isZodDefault : Zod → Bool
  | .zdefault _ => true
  | _ => false

def isZodLazy : Zod → Bool
  | .zlazy _ => true
  | _ => false

/-- One of the four terminal kinds the spec's TypeResolver is supposed to
reach (`Object | Array | StringLeaf | NumberLeaf`). -/
def isTerminalShape : Zod → Bool
  | .zstring => true
  | .znumber _ => true
  | .zarray _ => true
  | .zobject _ => true
  | _ => false

/-- The module-scope bindings that `z.lazy` getters read. -/
abbrev SchemaEnv := List (String × Zod)

def envLookup : SchemaEnv → String → Option Zod
  | [], _ => none
  | (k1, s1) :: rest, k => if k1 = k then some s1 else envLookup rest k

/-- `shape[key]` on a `ZodObject`'s shape. -/
def lookupField : List (String × Zod) → String → Option Zod
  | [], _ => none
  | (k1, s1) :: rest, k => if k1 = k then some s1 else lookupField rest k

/-- `getBaseType`: recursively unwraps `ZodDefault` (taking
`_def.innerType`) and `ZodLazy` (taking `.schema`, i.e. invoking the
lazy getter); every other node — including `ZodOptional` — is returned
as is.  The recursion of the source is unbounded, so it is modelled with
fuel: `none` means the unwrap chain does not terminate (a cyclic lazy
chain, a configuration error) or a lazy getter reads a missing binding
(which would throw in JS). -/
def getBaseType (env : SchemaEnv) : Nat → Zod → Option Zod
  | 0, _ => none
  | fuel+1, .zdefault inner => getBaseType env fuel inner
  | fuel+1, .zlazy name =>
    match envLookup env name with
    | some s => getBaseType env fuel s
    | none => none
  | _+1, s => some s

/-- Sequencing helper for `generateDefaultValue` over an object's shape:
`Object.keys(shape).forEach(key => defaultObject[key] = generateDefaultValue(shape[key]))`. -/
def genFields (gen : Zod → Option JValue) : List (String × Zod) → Option (List (String × JValue))
  | [] => some []
  | (k, s) :: rest =>
    match gen s with
    | none => none
    | some v =>
      match genFields gen rest with
      | none => none
      | some vs => some ((k, v) :: vs)

/-- `generateDefaultValue`: the default-value synthesizer.  Strings give
`''`; numbers give the first `min` check's value if present, else `1`
("Let's use 1 for CIA" in the source); arrays give `[]` without touching
the element type; objects recurse over the shape; anything else gives
`undefined`.  The source recursion has no termination guard, so it is
modelled with fuel: `none` at every fuel means the call does not
terminate. -/
def generateDefaultValue (env : SchemaEnv) : Nat → Zod → Option JValue
  | 0, _ => none
  | fuel+1, schema =>
    match getBaseType env (fuel+1) schema with
    | none => none
    | some base =>
      match base with
      | .zstring => some (.str "")
      | .znumber checks =>
        match findMinCheck checks with
        | some m => some (.num m)
        | none => some (.num 1)
      | .zarray _ => some (.arr [] [])
      | .zobject shape =>
        match genFields (generateDefaultValue env fuel) shape with
        | none => none
        | some es => some (.obj es)
      | _ => some JValue.undef

/-- Termination of synthesis on a given schema node: some fuel suffices. -/
def SynthTerminates (env : SchemaEnv) (s : Zod) : Prop :=
  ∃ fuel, (generateDefaultValue env fuel s).isSome

/-! ### The repository's schemas (backend/src/llm.ts, frontend/src/trpc.ts)

`MitigationSchema` is forward-declared with `let` and assigned after
`ThreatVulnerabilitySchema`, which refers to it through
`z.array(z.lazy(() => MitigationSchema))`; the lazy getter reads the
module binding, modelled by `repoEnv`.  `.describe(...)` calls carry only
presentational text and are not modelled. -/

def MitigationSchema : Zod := .zobject [("description", .zstring)]

def ThreatVulnerabilitySchema : Zod :=
  .zobject
    [("description", .zstring),
     ("mitigations", .zarray (.zlazy "MitigationSchema"))]

def CiaSchema : Zod :=
  .zobject
    [("confidentiality", .znumber [.cmin 1, .cmax 4]),
     ("integrity", .znumber [.cmin 1, .cmax 4]),
     ("availability", .znumber [.cmin 1, .cmax 4])]

def DataPointSchema : Zod :=
  .zobject [("name", .zstring), ("cia", CiaSchema)]

def GeneralSchema : Zod := .zobject [("description", .zstring)]

def ComplianceContentSchema : Zod :=
  .zobject
    [("general", GeneralSchema),
     ("lawsAndRegulations", .zarray .zstring),
     ("dataPoints", .zarray DataPointSchema),
     ("threatsAndVulnerabilities", .zarray ThreatVulnerabilitySchema)]

/-- The module bindings visible to the repository's lazy getters. -/
def repoEnv : SchemaEnv := [("MitigationSchema", MitigationSchema)]

/-! ## The mutation engine: `handleValueChange` and the array handlers -/

/-- The JS assignment `target[key] = value` for a container target
(`handleValueChange` checks `typeof target === 'object' && target !== null`
before every write).  On an object, the key (number keys stringified)
is updated in place or appended.  On an array, an index write updates or
extends; writing `length` resizes when given a valid length and throws a
`RangeError` otherwise (modelled as `none`); any other name becomes an
expando property.  Non-containers are unreachable (`none`). -/
def assignKey : JValue → Seg → JValue → Option JValue
  | .obj es, k, v => some (.obj (objSet es k.keyStr v))
  | .arr es props, .idx n, v => some (.arr (arrSet es n v) props)
  | .arr es props, .fld k, v =>
    if k = "length" then
      match v with
      | .num n => if 0 ≤ n ∧ n < 4294967296 then some (.arr (arrResize es n.toNat) props) else none
      | _ => none
    else some (.arr es (objSet props k v))
  | _, _, _ => none

/-- The auto-vivification step of the navigation loop:
`if (parentLevel[key] === undefined || parentLevel[key] === null) parentLevel[key] = nextKeyIsIndex ? [] : {}`.
A missing (or `null`) slot becomes an empty array when the next path
segment is a number and an empty object otherwise; an existing non-null
slot is left alone. -/
def vivify (child : JValue) (nextSeg : Seg) : JValue :=
  match child with
  | .undef => match nextSeg with | .idx _ => JValue.arr [] [] | .fld _ => JValue.obj []
  | .jnull => match nextSeg with | .idx _ => JValue.arr [] [] | .fld _ => JValue.obj []
  | c => c

/-- The navigation-and-assignment body of `handleValueChange`, acting on
the deep copy `newData`.

* With two or more segments remaining, one loop iteration runs: the
  `typeof`/`null` check on the current level, the auto-vivification of a
  missing slot, and the descent `parentLevel = parentLevel[key]`.
  In-place mutation of the freshly copied tree is modelled by writing the
  recursively updated child back into its slot.
* With one segment remaining the loop is over: the final container check
  runs, then `parentLevel[finalKeyOrIndex] = value`.
* With no segments (`currentPath.length === 0`) the loop is skipped and
  `currentPath[currentPath.length - 1]` is `undefined`, which JS coerces
  to the property key `"undefined"`.

`none` means `onDataChange` is never called. -/
def setWalk : JValue → List Seg → JValue → Option JValue
  | root, [], v =>
    if isContainer root then assignKey root (.fld "undefined") v else none
  | root, [last], v =>
    if isContainer root then assignKey root last v else none
  | root, k :: r :: rest, v =>
    if isContainer root then
      match setWalk (vivify (jsGet root k) r) (r :: rest) v with
      | some res => assignKey root k res
      | none => none
    else none

/-- `handleValueChange(currentPath, value)`: deep-copies `fullData`,
navigates with auto-vivification and assigns.  `some newData` models the
`onDataChange(newData)` call; `none` models the error returns that
publish nothing. -/
def handleValueChange (fullData : JValue) (currentPath : List Seg) (value : JValue) : Option JValue :=
  setWalk (jsonCopy fullData) currentPath value

/-- The observable document after a `set`: the published update if one
was made, the unchanged input otherwise. -/
def setOp (doc : JValue) (p : List Seg) (v : JValue) : JValue :=
  (handleValueChange doc p v).getD doc

/-- `Array.isArray(data) ? data : []` for the value rendered at an
address: the element list of the array there, else `[]`. -/
def arrayDataAt (doc : JValue) (p : List Seg) : List JValue :=
  match getPath doc p with
  | .arr es _ => es
  | _ => []

/-- The Add-button handler with the synthesized item given explicitly:
`newArray = [...arrayData, newItem]; handleValueChange(path, newArray)`
(the spread copies the elements and drops expandos). -/
def insertArrayItemWith (doc : JValue) (p : List Seg) (newItem : JValue) : JValue :=
  setOp doc p (.arr (arrayDataAt doc p ++ [newItem]) [])

/-- The Add-button handler as written:
`const newItem = generateDefaultValue(elementType)` followed by the
append; `none` if synthesis does not terminate. -/
def insertArrayItemOp (env : SchemaEnv) (fuel : Nat) (elementType : Zod)
    (doc : JValue) (p : List Seg) : Option JValue :=
  match generateDefaultValue env fuel elementType with
  | none => none
  | some newItem => some (insertArrayItemWith doc p newItem)

/-- The Remove-button handler:
`newArray = arrayData.filter((_, i) => i !== index); handleValueChange(path, newArray)`.
The filter keeps every element except the one at `index`
(`List.eraseIdx`), and removing an out-of-range index keeps everything. -/
def removeArrayItem (doc : JValue) (p : List Seg) (index : Nat) : JValue :=
  setOp doc p (.arr ((arrayDataAt doc p).eraseIdx index) [])

/-- Success predicate of the navigation loop of `setWalk`: every level
the walk visits (after vivification of missing slots) passes the
`typeof`/`null` container check, including the final parent. -/
def walkOk : JValue → List Seg → Bool
  | root, [] => isContainer root
  | root, [_] => isContainer root
  | root, k :: r :: rest =>
    isContainer root && walkOk (vivify (jsGet root k) r) (r :: rest)

/-- No segment of the address is the field name `length` (which collides
with the JS array `length` property). -/
def noLengthSeg (p : List Seg) : Bool :=
  p.all fun seg =>
    match seg with
    | .fld s => !(s == "length")
    | .idx _ => true

/-- No segment of the address is the field name `__proto__`.  Assigning
`__proto__` on an object that lacks it as an own property triggers the
inherited `Object.prototype.__proto__` accessor in JS instead of creating
a data property, so the write is not an ordinary own-property
assignment. -/
def noProtoSeg (p : List Seg) : Bool :=
  p.all fun seg =>
    match seg with
    | .fld s => !(s == "__proto__")
    | .idx _ => true

/-- No name segment of the navigation loop reads a missing slot: along
the walk (mirroring `setWalk`, vivification included), every `fld`
segment finds a non-`undefined` value — an existing own property,
possibly `null`.  At a missing name slot real JS consults the prototype
chain (`Array.prototype`/`Object.prototype` members such as `push`,
`map`, `toString`), which the own-property model does not carry; this
predicate confines an address to the fragment where the model and the
engine read identically.  Index segments are unrestricted: the
prototypes hold no numeric properties, so a missing index reads
`undefined` in both. -/
def noUndefFldRead : JValue → List Seg → Bool
  | _, [] => true
  | _, [_] => true
  | root, k :: r :: rest =>
    if isContainer root then
      (match k, jsGet root k with
       | .fld _, .undef => false
       | _, _ => true) &&
      noUndefFldRead (vivify (jsGet root k) r) (r :: rest)
    else true

/-- The address denotes an existing, kind-matching chain in the document:
object fields are present own properties, array indices are in range.
This is the shape of every address the render tree itself produces. -/
def pathFits : JValue → List Seg → Bool
  | _, [] => true
  | .obj es, .fld k :: rest =>
    match objGetOpt es k with
    | some v => pathFits v rest
    | none => false
  | .arr es _, .idx n :: rest =>
    match es[n]? with
    | some v => pathFits v rest
    | none => false
  | _, _ => false

/-- Functional description of a successful `setWalk` along an existing
kind-matching path: the value written at the end of the walk, with every
container on the path rebuilt. -/
def writeAt : JValue → List Seg → JValue → JValue
  | _, [], v => v
  | root, [last], v => (assignKey root last v).getD root
  | root, k :: r :: rest, v =>
    (assignKey root k (writeAt (jsGet root k) (r :: rest) v)).getD root

/-! ## The render tree

The component body of `SchemaFormRenderer`, abstracted from JSX: the tree
of nodes it produces for a (schema, data, path) triple.  Presentational
attributes (CSS classes, labels from `.describe`, the CIA row layout) are
not modelled; each node carries what the widgets read: the raw data value
and, for numbers, the min/max checks. -/

/-- One node of the rendered tree. -/
inductive RenderNode where
  | errorNode : String → RenderNode
  | objNode : List (String × RenderNode) → RenderNode
  | arrNode : List RenderNode → RenderNode
  | strField : JValue → RenderNode
  | numField : JValue → Option Int → Option Int → RenderNode
  | unsupported : String → RenderNode
deriving Repr

/-- `Object.keys(shape).map(key => ... <SchemaFormRenderer schema={fieldSchema}
data={fieldData} path={currentPath} ... />)`: the children of an object
node, where `fieldData` is `objectData?.[key]`. -/
def renderFields (bld : Zod → JValue → List Seg → Option RenderNode)
    (objectData : JValue) (path : List Seg) :
    List (String × Zod) → Option (List (String × RenderNode))
  | [] => some []
  | (k, fs) :: rest =>
    match bld fs (jsGet objectData (.fld k)) (path ++ [.fld k]) with
    | none => none
    | some n =>
      match renderFields bld objectData path rest with
      | none => none
      | some ns => some ((k, n) :: ns)

/-- `arrayData.map((item, index) => ... path={[...path, index]} ...)`:
the item nodes of an array node. -/
def renderItems (bld : JValue → List Seg → Option RenderNode) (path : List Seg) :
    Nat → List JValue → Option (List RenderNode)
  | _, [] => some []
  | i, item :: rest =>
    match bld item (path ++ [.idx i]) with
    | none => none
    | some n =>
      match renderItems bld path (i+1) rest with
      | none => none
      | some ns => some (n :: ns)

/-- The `SchemaFormRenderer` component as a tree builder.

* When `path.length === 1` the call is treated as the initial call from
  `App.tsx`: the main schema's base is navigated by `shape[initialSegment]`,
  a non-object base or numeric segment gives the "Invalid initial path"
  error div, and a missing field gives the "Schema not found" error div.
* Otherwise the `schema` prop is used directly.
* The base schema then selects the object, array, string, number or
  unsupported branch exactly as in the source.

Fuel bounds the recursion (the source recursion is unbounded on cyclic
lazy chains); `none` means fuel ran out.

The shape-directed part of the component body, after `schemaToRender`
has been determined — `const baseSchema = getBaseType(schemaToRender)`
followed by the object / array / string / number / unsupported render
branches — is `buildCore`; `bld` is the recursive render call for
children. -/
def buildCore (env : SchemaEnv) (baseFuel : Nat)
    (bld : Zod → JValue → List Seg → Option RenderNode)
    (schemaToRender : Zod) (data : JValue) (path : List Seg) : Option RenderNode :=
  match getBaseType env baseFuel schemaToRender with
  | none => none
  | some base =>
    match base with
    | .zobject shape =>
      let objectData := match data with | .obj es => JValue.obj es | _ => JValue.obj []
      match renderFields bld objectData path shape with
      | none => none
      | some children => some (.objNode children)
    | .zarray elementType =>
      let arrayData := match data with | .arr es _ => es | _ => []
      match renderItems (fun item pp => bld elementType item pp) path 0 arrayData with
      | none => none
      | some items => some (.arrNode items)
    | .zstring => some (.strField data)
    | .znumber checks => some (.numField data (findMinCheck checks) (findMaxCheck checks))
    | other => some (.unsupported (typeName other))

def build (env : SchemaEnv) : Nat → Zod → JValue → List Seg → Option RenderNode
  | 0, _, _, _ => none
  | fuel+1, schema, data, path =>
    let schemaToRender? : Option (Sum String Zod) :=
      if path.length = 1 then
        match getBaseType env (fuel+1) schema, path with
        | some (.zobject shape), .fld s :: _ =>
          match lookupField shape s with
          | some t => some (.inr t)
          | none => some (.inl "Error: Schema not found for initial path.")
        | some _, _ => some (.inl "Error: Invalid initial path.")
        | none, _ => none
      else some (.inr schema)
    match schemaToRender? with
    | none => none
    | some (.inl msg) => some (.errorNode msg)
    | some (.inr schemaToRender) =>
      buildCore env (fuel+1) (build env fuel) schemaToRender data path

mutual

/-- Every leaf of the tree shows missing data (`undefined`): textareas
and number inputs were rendered from an absent value. -/
def allLeavesAbsent : RenderNode → Bool
  | .errorNode _ => false
  | .objNode children => allLeavesAbsentF children
  | .arrNode items => allLeavesAbsentI items
  | .strField raw => match raw with | .undef => true | _ => false
  | .numField raw _ _ => match raw with | .undef => true | _ => false
  | .unsupported _ => true

def allLeavesAbsentF : List (String × RenderNode) → Bool
  | [] => true
  | (_, n) :: rest => allLeavesAbsent n && allLeavesAbsentF rest

def allLeavesAbsentI : List RenderNode → Bool
  | [] => true
  | n :: rest => allLeavesAbsent n && allLeavesAbsentI rest

end

/-- Data-independent sufficiency of a fuel bound for `build`: mirrors the
recursion of `build` over the schema alone. -/
def fieldsFuelOk (ok : Zod → Bool) : List (String × Zod) → Bool
  | [] => true
  | (_, s) :: rest => ok s && fieldsFuelOk ok rest

def fuelOk (env : SchemaEnv) : Nat → Zod → Bool
  | 0, _ => false
  | fuel+1, s =>
    match getBaseType env (fuel+1) s with
    | none => false
    | some (.zobject shape) => fieldsFuelOk (fuelOk env fuel) shape
    | some (.zarray e) => fuelOk env fuel e
    | some _ => true

/-! ## Heap model

`handleValueChange` mutates: it deep-copies `fullData` and then assigns
through the copy in place.  The immutability contract ("a structural
snapshot of the document taken before the call equals one taken after")
is about object identity, so it is stated over an explicit heap: values
are JS runtime values whose objects and arrays are references to heap
cells; mutation is cell update; allocation appends a cell. -/

/-- A JS runtime value: primitives are immediate, objects and arrays are
references to heap cells. -/
inductive HVal where
  | hundef : HVal
  | hnull : HVal
  | hstr : String → HVal
  | hnum : Int → HVal
  | href : Nat → HVal
deriving Repr, DecidableEq

/-- A heap cell: an object's ordered property list, or an array's
element list plus expando properties. -/
inductive HCell where
  | cobj : List (String × HVal) → HCell
  | carr : List HVal → List (String × HVal) → HCell
deriving Repr, DecidableEq

/-- The heap: cell `r` lives at position `r`; allocation appends. -/
abbrev Heap := List HCell

def hget (h : Heap) (r : Nat) : Option HCell := h[r]?

def hset (h : Heap) (r : Nat) (c : HCell) : Heap := h.set r c

def halloc (h : Heap) (c : HCell) : Heap × Nat := (h ++ [c], h.length)

def objGetH : List (String × HVal) → String → HVal
  | [], _ => .hundef
  | (k1, v1) :: rest, k => if k1 = k then v1 else objGetH rest k

def objSetH : List (String × HVal) → String → HVal → List (String × HVal)
  | [], k, v => [(k, v)]
  | (k1, v1) :: rest, k, v =>
    if k1 = k then (k, v) :: rest else (k1, v1) :: objSetH rest k v

def arrSetH (es : List HVal) (n : Nat) (v : HVal) : List HVal :=
  if n < es.length then es.set n v
  else es ++ List.replicate (n - es.length) .hundef ++ [v]

def arrResizeH (es : List HVal) (n : Nat) : List HVal :=
  if n ≤ es.length then es.take n
  else es ++ List.replicate (n - es.length) HVal.hundef

/-- `parentLevel[key]` read from a heap cell. -/
def hRead (h : Heap) (r : Nat) (k : Seg) : HVal :=
  match hget h r with
  | some (.cobj fields) => objGetH fields k.keyStr
  | some (.carr elems props) =>
    match k with
    | .idx n => elems.getD n .hundef
    | .fld s => if s = "length" then .hnum elems.length else objGetH props s
  | none => HVal.hundef

/-- `cell[key] = value` on the heap; `none` models the `RangeError` on
assigning an invalid array length (no heap change). -/
def hWrite (h : Heap) (r : Nat) (k : Seg) (v : HVal) : Option Heap :=
  match hget h r with
  | some (.cobj fields) => some (hset h r (.cobj (objSetH fields k.keyStr v)))
  | some (.carr elems props) =>
    match k with
    | .idx n => some (hset h r (.carr (arrSetH elems n v) props))
    | .fld s =>
      if s = "length" then
        match v with
        | .hnum n =>
          if 0 ≤ n ∧ n < 4294967296 then
            some (hset h r (.carr (arrResizeH elems n.toNat) props))
          else none
        | _ => none
      else some (hset h r (.carr elems (objSetH props s v)))
  | none => none

/-- Whether a runtime value passes `typeof v === 'object' && v !== null`. -/
def isContainerH : HVal → Bool
  | .href _ => true
  | _ => false

/-! `JSON.parse(JSON.stringify ·))` on the heap: allocates a structurally
fresh copy; `undefined` properties dropped, `undefined` elements become
`null`, array expandos dropped.  Fuel models the cyclic case (where JS
`JSON.stringify` throws). -/

def copyFieldsH (cp : Heap → HVal → Option (Heap × HVal)) :
    Heap → List (String × HVal) → Option (Heap × List (String × HVal))
  | h, [] => some (h, [])
  | h, (k, v) :: rest =>
    if v = .hundef then copyFieldsH cp h rest
    else
      match cp h v with
      | none => none
      | some (h1, v1) =>
        match copyFieldsH cp h1 rest with
        | none => none
        | some (h2, vs) => some (h2, (k, v1) :: vs)

def copyElemsH (cp : Heap → HVal → Option (Heap × HVal)) :
    Heap → List HVal → Option (Heap × List HVal)
  | h, [] => some (h, [])
  | h, v :: rest =>
    if v = .hundef then
      match copyElemsH cp h rest with
      | none => none
      | some (h1, vs) => some (h1, .hnull :: vs)
    else
      match cp h v with
      | none => none
      | some (h1, v1) =>
        match copyElemsH cp h1 rest with
        | none => none
        | some (h2, vs) => some (h2, v1 :: vs)

def copyValH : Nat → Heap → HVal → Option (Heap × HVal)
  | 0, _, _ => none
  | fuel+1, h, v =>
    match v with
    | .href r =>
      match hget h r with
      | some (.cobj fields) =>
        match copyFieldsH (copyValH fuel) h fields with
        | none => none
        | some (h1, fs) =>
          match halloc h1 (.cobj fs) with
          | (h2, r1) => some (h2, .href r1)
      | some (.carr elems _) =>
        match copyElemsH (copyValH fuel) h elems with
        | none => none
        | some (h1, es) =>
          match halloc h1 (.carr es []) with
          | (h2, r1) => some (h2, .href r1)
      | none => none
    | prim => some (h, prim)

/-- The vivified container: `nextKeyIsIndex ? [] : {}` as a fresh cell. -/
def vivifyCellH (nextSeg : Seg) : HCell :=
  match nextSeg with
  | .idx _ => .carr [] []
  | .fld _ => .cobj []

/-- The navigation loop of `handleValueChange` on the heap: runs while at
least two segments remain; vivification allocates a fresh cell and writes
its reference into the current level before descending.  Returns the heap
as mutated so far and the final `parentLevel` (`none` for the
`console.error` early return). -/
def hvcLoop : Heap → HVal → List Seg → Heap × Option HVal
  | h, cur, [] => (h, some cur)
  | h, cur, [_] => (h, some cur)
  | h, cur, k :: r :: rest =>
    match cur with
    | .href cr =>
      match hRead h cr k with
      | .hundef =>
        match halloc h (vivifyCellH r) with
        | (h1, nr) =>
          match hWrite h1 cr k (.href nr) with
          | some h2 => hvcLoop h2 (.href nr) (r :: rest)
          | none => (h1, none)
      | .hnull =>
        match halloc h (vivifyCellH r) with
        | (h1, nr) =>
          match hWrite h1 cr k (.href nr) with
          | some h2 => hvcLoop h2 (.href nr) (r :: rest)
          | none => (h1, none)
      | c => hvcLoop h c (r :: rest)
    | _ => (h, none)

/-- `handleValueChange` on the heap: deep copy of `fullData`, navigation
loop, final container check, final assignment
(`parentLevel[currentPath[currentPath.length - 1]] = value`, the key being
`"undefined"` for the empty path), publish.  The result pairs the final
heap with `some newDataRef` when `onDataChange` was invoked and `none`
otherwise; the outer `Option` is copy-fuel exhaustion (unreachable for
finite documents). -/
def handleValueChangeH (fuel : Nat) (h : Heap) (fullData : HVal)
    (currentPath : List Seg) (value : HVal) : Option (Heap × Option HVal) :=
  match copyValH fuel h fullData with
  | none => none
  | some (h1, newData) =>
    match hvcLoop h1 newData currentPath with
    | (h2, none) => some (h2, none)
    | (h2, some parent) =>
      match parent with
      | .href pr =>
        match hWrite h2 pr
            (match currentPath.getLast? with | some k => k | none => Seg.fld "undefined") value with
        | some h3 => some (h3, some newData)
        | none => some (h2, none)
      | _ => some (h2, none)

/-- `acc?.[k]` on the heap, as used to read the data rendered at a path. -/
def hReadVal (h : Heap) (v : HVal) (k : Seg) : HVal :=
  match v with
  | .href r => hRead h r k
  | .hstr s =>
    match k with
    | .idx n =>
      match s.data.get? n with
      | some c => .hstr (String.mk [c])
      | none => .hundef
    | .fld f => if f = "length" then .hnum s.length else .hundef
  | _ => .hundef

def hGetPath (h : Heap) (v : HVal) (p : List Seg) : HVal := p.foldl (hReadVal h) v

/-- `Array.isArray(data) ? data : []` on the heap. -/
def hArrayDataAt (h : Heap) (docVal : HVal) (p : List Seg) : List HVal :=
  match hGetPath h docVal p with
  | .href r =>
    match hget h r with
    | some (.carr es _) => es
    | _ => []
  | _ => []

/-- The Add-button handler on the heap: allocates the fresh array
`[...arrayData, newItem]` (sharing the element references) and publishes
it through `handleValueChange`. -/
def insertArrayItemH (fuel : Nat) (h : Heap) (docVal : HVal) (p : List Seg)
    (newItem : HVal) : Option (Heap × Option HVal) :=
  match halloc h (.carr (hArrayDataAt h docVal p ++ [newItem]) []) with
  | (h1, nr) => handleValueChangeH fuel h1 docVal p (.href nr)

/-- The Remove-button handler on the heap: allocates the fresh filtered
array and publishes it through `handleValueChange`. -/
def removeArrayItemH (fuel : Nat) (h : Heap) (docVal : HVal) (p : List Seg)
    (index : Nat) : Option (Heap × Option HVal) :=
  match halloc h (.carr ((hArrayDataAt h docVal p).eraseIdx index) []) with
  | (h1, nr) => handleValueChangeH fuel h1 docVal p (.href nr)

/-! Structural snapshots and heap wellformedness. -/

/-- A reference mentioned by a value is below `n`. -/
def valRefBelow (n : Nat) : HVal → Bool
  | .href r => decide (r < n)
  | _ => true

/-- Every reference in a cell is below `n`. -/
def cellRefsBelow (n : Nat) : HCell → Bool
  | .cobj fields => fields.all fun kv => valRefBelow n kv.2
  | .carr elems props =>
    elems.all (valRefBelow n) && props.all fun kv => valRefBelow n kv.2

/-- Every cell's references point inside the heap. -/
def wfHeap (h : Heap) : Bool := h.all (cellRefsBelow h.length)

/-- A reference mentioned by a value is at or above `n`. -/
def valRefGE (n : Nat) : HVal → Prop
  | .href r => n ≤ r
  | _ => True

/-- Every reference in a cell is at or above `n`. -/
def cellGE (n : Nat) : HCell → Prop
  | .cobj fields => ∀ kv ∈ fields, valRefGE n kv.2
  | .carr elems props => (∀ v ∈ elems, valRefGE n v) ∧ ∀ kv ∈ props, valRefGE n kv.2

/-- Every cell at or above the watermark `n` references only cells at or
above `n` (the fresh region is self-contained). -/
def goodAbove (n : Nat) (h : Heap) : Prop :=
  ∀ r c, n ≤ r → hget h r = some c → cellGE n c

/-- The structural snapshot of a value: the document tree read back from
the heap (fuel-bounded; any fuel at least the tree's depth succeeds). -/
def snapFieldsH (snap : HVal → Option JValue) :
    List (String × HVal) → Option (List (String × JValue))
  | [] => some []
  | (k, v) :: rest =>
    match snap v with
    | none => none
    | some j =>
      match snapFieldsH snap rest with
      | none => none
      | some js => some ((k, j) :: js)

def snapElemsH (snap : HVal → Option JValue) : List HVal → Option (List JValue)
  | [] => some []
  | v :: rest =>
    match snap v with
    | none => none
    | some j =>
      match snapElemsH snap rest with
      | none => none
      | some js => some (j :: js)

def snapshotH : Nat → Heap → HVal → Option JValue
  | 0, _, _ => none
  | fuel+1, h, v =>
    match v with
    | .hundef => some .undef
    | .hnull => some .jnull
    | .hstr s => some (.str s)
    | .hnum n => some (.num n)
    | .href r =>
      match hget h r with
      | some (.cobj fields) =>
        match snapFieldsH (snapshotH fuel h) fields with
        | none => none
        | some fs => some (.obj fs)
      | some (.carr elems props) =>
        match snapElemsH (snapshotH fuel h) elems with
        | none => none
        | some es =>
          match snapFieldsH (snapshotH fuel h) props with
          | none => none
          | some ps => some (.arr es ps)
      | none => none

/-! ## Basic lemmas about the JS primitives -/

theorem objGet_objSet (es : List (String × JValue)) (k : String) (v : JValue) :
    objGet (objSet es k v) k = v := by
  induction es with
  | nil => simp [objSet, objGet]
  | cons e rest ih =>
    obtain ⟨k1, v1⟩ := e
    by_cases h : k1 = k
    · simp [objSet, objGet, h]
    · simp [objSet, objGet, h, ih]

theorem objGetOpt_objSet (es : List (String × JValue)) (k : String) (v : JValue) :
    objGetOpt (objSet es k v) k = some v := by
  induction es with
  | nil => simp [objSet, objGetOpt]
  | cons e rest ih =>
    obtain ⟨k1, v1⟩ := e
    by_cases h : k1 = k
    · simp [objSet, objGetOpt, h]
    · simp [objSet, objGetOpt, h, ih]

theorem objSet_objSet (es : List (String × JValue)) (k : String) (v1 v2 : JValue) :
    objSet (objSet es k v1) k v2 = objSet es k v2 := by
  induction es with
  | nil => simp [objSet]
  | cons e rest ih =>
    obtain ⟨k1, w⟩ := e
    by_cases h : k1 = k
    · simp [objSet, h]
    · simp [objSet, h, ih]

theorem objGetOpt_eq_objGet (es : List (String × JValue)) (k : String) (v : JValue)
    (h : objGetOpt es k = some v) : objGet es k = v := by
  induction es with
  | nil => simp [objGetOpt] at h
  | cons e rest ih =>
    obtain ⟨k1, w⟩ := e
    by_cases hk : k1 = k
    · simp [objGetOpt, hk] at h
      simp [objGet, hk, h]
    · simp [objGetOpt, hk] at h
      simp [objGet, hk, ih h]

theorem objSet_self (es : List (String × JValue)) (k : String) (v : JValue)
    (h : objGetOpt es k = some v) : objSet es k v = es := by
  induction es with
  | nil => simp [objGetOpt] at h
  | cons e rest ih =>
    obtain ⟨k1, w⟩ := e
    by_cases hk : k1 = k
    · simp [objGetOpt, hk] at h
      simp [objSet, hk, h]
    · simp [objGetOpt, hk] at h
      simp [objSet, hk, ih h]

theorem arrGetD_arrSet (es : List JValue) (n : Nat) (v : JValue) :
    (arrSet es n v).getD n .undef = v := by
  unfold arrSet
  split
  · simp [List.getD_eq_getElem?_getD, List.getElem?_set, *]
  · rename_i h
    have h1 : es.length ≤ n := by omega
    have key : ∀ pre : List JValue, pre.length = n →
        (pre ++ [v])[n]?.getD JValue.undef = v := by
      intro pre hpre
      rw [List.getElem?_append_right (le_of_eq hpre)]
      rw [hpre, Nat.sub_self]
      simp
    rw [List.getD_eq_getElem?_getD]
    exact key (es ++ List.replicate (n - es.length) JValue.undef) (by simp; omega)

theorem arrResize_length (es : List JValue) (n : Nat) : (arrResize es n).length = n := by
  unfold arrResize
  split <;> simp <;> omega

/-- Reading back the key just assigned yields the assigned value
(for the `length` key of an array, JS reports the new length, which
equals the valid length value just assigned). -/
theorem jsGet_assignKey (c : JValue) (k : Seg) (v out : JValue)
    (h : assignKey c k v = some out) : jsGet out k = v := by
  cases c with
  | undef => simp [assignKey] at h
  | jnull => simp [assignKey] at h
  | str s => simp [assignKey] at h
  | num n => simp [assignKey] at h
  | obj es =>
    simp [assignKey] at h
    subst h
    simp [jsGet, objGet_objSet]
  | arr es props =>
    cases k with
    | idx n =>
      simp [assignKey] at h
      subst h
      simp only [jsGet]
      exact arrGetD_arrSet es n v
    | fld s =>
      by_cases hs : s = "length"
      · subst hs
        cases v with
        | num n =>
          simp [assignKey] at h
          obtain ⟨hb, hout⟩ := h
          subst hout
          simp [jsGet, arrResize_length, Int.toNat_of_nonneg hb.1]
        | undef => simp [assignKey] at h
        | jnull => simp [assignKey] at h
        | str t => simp [assignKey] at h
        | obj es1 => simp [assignKey] at h
        | arr es1 ps1 => simp [assignKey] at h
      · simp [assignKey, hs] at h
        subst h
        simp [jsGet, hs, objGet_objSet]

/-- Assignment on a container never throws unless the key is the array
`length` property. -/
theorem assignKey_isSome (c : JValue) (k : Seg) (v : JValue)
    (hc : isContainer c = true) (hk : ∀ s, k = Seg.fld s → s ≠ "length") :
    (assignKey c k v).isSome := by
  cases c with
  | undef => simp [isContainer] at hc
  | jnull => simp [isContainer] at hc
  | str s => simp [isContainer] at hc
  | num n => simp [isContainer] at hc
  | obj es => cases k <;> simp [assignKey]
  | arr es props =>
    cases k with
    | idx n => simp [assignKey]
    | fld s => simp [assignKey, hk s rfl]

/-- Round trip of a published `setWalk`: reading the address back from
the published document yields the written value (for any nonempty
address). -/
theorem setWalk_roundtrip : ∀ (p : List Seg) (root v res : JValue),
    p ≠ [] → setWalk root p v = some res → getPath res p = v := by
  intro p
  induction p with
  | nil => intro root v res h _; exact absurd rfl h
  | cons k p' ih =>
    intro root v res _ hw
    cases p' with
    | nil =>
      simp only [setWalk] at hw
      split at hw
      · simp [getPath, jsGet_assignKey _ _ _ _ hw]
      · exact absurd hw (by simp)
    | cons r rest =>
      simp only [setWalk] at hw
      split at hw
      · cases hm : setWalk (vivify (jsGet root k) r) (r :: rest) v with
        | none => rw [hm] at hw; simp at hw
        | some mid =>
          rw [hm] at hw
          have hg := jsGet_assignKey _ _ _ _ hw
          have hrec := ih (vivify (jsGet root k) r) v mid (by simp) hm
          simp only [getPath, List.foldl_cons] at hrec ⊢
          rw [hg]
          exact hrec
      · exact absurd hw (by simp)

/-- If the walk fails its container check anywhere, nothing is
published. -/
theorem walkOk_false_setWalk_none : ∀ (p : List Seg) (root v : JValue),
    walkOk root p = false → setWalk root p v = none := by
  intro p
  induction p with
  | nil =>
    intro root v h
    simp only [walkOk] at h
    simp [setWalk, h]
  | cons k p' ih =>
    intro root v h
    cases p' with
    | nil =>
      simp only [walkOk] at h
      simp [setWalk, h]
    | cons r rest =>
      simp only [walkOk, Bool.and_eq_false_iff] at h
      cases h with
      | inl h => simp [setWalk, h]
      | inr h =>
        by_cases hc : isContainer root
        · simp [setWalk, hc, ih _ v h]
        · simp [setWalk, hc]

/-- If every visited level passes the container check and no segment is
the name `length`, the edit always publishes. -/
theorem walkOk_setWalk_isSome : ∀ (p : List Seg) (root v : JValue),
    walkOk root p = true → noLengthSeg p = true → (setWalk root p v).isSome := by
  intro p
  induction p with
  | nil =>
    intro root v h _
    simp only [walkOk] at h
    simp only [setWalk, h, if_true]
    exact assignKey_isSome _ _ _ h (by intro s hs; cases hs; decide)
  | cons k p' ih =>
    intro root v h hn
    cases p' with
    | nil =>
      simp only [walkOk] at h
      simp only [noLengthSeg, List.all_cons, Bool.and_eq_true] at hn
      simp only [setWalk, h, if_true]
      refine assignKey_isSome _ _ _ h ?_
      intro s hs
      subst hs
      simpa using hn.1
    | cons r rest =>
      simp only [walkOk, Bool.and_eq_true] at h
      simp only [noLengthSeg, List.all_cons, Bool.and_eq_true] at hn
      have hrec := ih (vivify (jsGet root k) r) v h.2 (by simp [noLengthSeg, hn.2.1, hn.2.2])
      obtain ⟨mid, hm⟩ := Option.isSome_iff_exists.mp hrec
      simp only [setWalk, h.1, if_true, hm]
      refine assignKey_isSome _ _ _ h.1 ?_
      intro s hs
      subst hs
      simpa using hn.1

/-! ## Claim theorems -/

/-- Helper for claim C1: on a deferred self-reference whose cycle does not
pass through an array — `selfRef = z.lazy(() => selfRefObject)` inside the
object it refers to — synthesis finds no fuel that suffices: the source
recursion never terminates (there is no `seen` set in
`generateDefaultValue`). -/
theorem synthSelfLoop_none : ∀ n,
    generateDefaultValue [("selfRef", Zod.zobject [("self", Zod.zlazy "selfRef")])] n
      (.zlazy "selfRef") = none := by
  intro n
  induction n with
  | zero => rfl
  | succ m ih =>
    cases m with
    | zero => rfl
    | succ k =>
      have key : generateDefaultValue
          [("selfRef", Zod.zobject [("self", Zod.zlazy "selfRef")])] (k+2)
          (.zlazy "selfRef") =
          match (match generateDefaultValue
              [("selfRef", Zod.zobject [("self", Zod.zlazy "selfRef")])] (k+1)
              (.zlazy "selfRef") with
            | none => none
            | some v => some [("self", v)]) with
          | none => none
          | some es => some (JValue.obj es) := rfl
      rw [ih] at key
      exact key

/-- C1 counterexample: the claimed `seen`-set mechanism does not exist in
`generateDefaultValue`; on a finite schema graph whose deferred cycle is
not broken by an array node, synthesis does not terminate at any fuel. -/
theorem c1_counterexample :
    ¬ SynthTerminates [("selfRef", Zod.zobject [("self", Zod.zlazy "selfRef")])]
      (.zlazy "selfRef") := by
  rintro ⟨n, hn⟩
  simp [synthSelfLoop_none n] at hn

/-- C1 (amended): synthesis terminates on the repository's actual schema
graph — where the deferred reference `z.lazy(() => MitigationSchema)`
occurs only inside an `Array` element and `generateDefaultValue` returns
`[]` for arrays without recursing into the element type — producing the
expected defaults; no `seen` set is involved. -/
theorem c1_repo_synthesis_terminates :
    SynthTerminates repoEnv ThreatVulnerabilitySchema ∧
    generateDefaultValue repoEnv 3 ThreatVulnerabilitySchema =
      some (.obj [("description", .str ""), ("mitigations", .arr [] [])]) ∧
    SynthTerminates repoEnv (.zlazy "MitigationSchema") ∧
    generateDefaultValue repoEnv 3 (.zlazy "MitigationSchema") =
      some (.obj [("description", .str "")]) ∧
    SynthTerminates repoEnv ComplianceContentSchema :=
  ⟨⟨3, rfl⟩, rfl, ⟨3, rfl⟩, rfl, ⟨4, rfl⟩⟩

/-- C2 counterexample: with an existing non-container value on the way
(the string at `a` while the address goes through `a.b`), `set` publishes
nothing and reading the address back gives `undefined`, not the written
value. -/
theorem c2_counterexample :
    handleValueChange (JValue.obj [("a", .str "x")]) [.fld "a", .fld "b"] (.num 7) = none ∧
    getPath (setOp (JValue.obj [("a", .str "x")]) [.fld "a", .fld "b"] (.num 7))
      [.fld "a", .fld "b"] = .undef ∧
    JValue.undef ≠ JValue.num 7 :=
  ⟨rfl, rfl, fun h => nomatch h⟩

/-- C2 (amended): for every nonempty address none of whose segments is
the name `length` (array length-assignment coerces: `a.length = null`
publishes with a numeric readback) or `__proto__` (assignment triggers
the inherited accessor), and along whose walk every name segment finds an
own property of the copied document (so the engine never consults the
prototype chain): whenever `set` publishes a new document, reading the
address back from it yields exactly the written value:
`get(set(doc, P, V), P) = V`. -/
theorem c2_get_set_roundtrip (doc : JValue) (p : List Seg) (v res : JValue)
    (hp : p ≠ []) (hlen : noLengthSeg p = true) (hproto : noProtoSeg p = true)
    (hown : noUndefFldRead (jsonCopy doc) p = true)
    (h : handleValueChange doc p v = some res) :
    getPath res p = v :=
  setWalk_roundtrip p (jsonCopy doc) v res hp h

/-- Witness for C2 at a concrete input. -/
theorem c2_get_set_roundtrip_witness :
    noLengthSeg [Seg.fld "a"] = true ∧
    noProtoSeg [Seg.fld "a"] = true ∧
    noUndefFldRead (jsonCopy (JValue.obj [("a", .num 1)])) [Seg.fld "a"] = true ∧
    handleValueChange (JValue.obj [("a", .num 1)]) [.fld "a"] (.num 2) =
      some (.obj [("a", .num 2)]) ∧
    getPath (JValue.obj [("a", .num 2)]) [.fld "a"] = .num 2 :=
  ⟨by decide, by decide, rfl, rfl,
   c2_get_set_roundtrip (JValue.obj [("a", .num 1)]) [.fld "a"] (.num 2)
     (.obj [("a", .num 2)]) (by simp) (by decide) (by decide) rfl rfl⟩

/-- C4 counterexample: the name segment `length` disagrees with the array
at `a` (a name segment against an array container), and the engine does
not recover — it navigates into the numeric `length` property, fails the
container check and publishes nothing. -/
theorem c4_counterexample :
    handleValueChange (JValue.obj [("a", .arr [.num 1, .num 2] [])])
      [.fld "a", .fld "length", .fld "x"] (.num 9) = none ∧
    setOp (JValue.obj [("a", .arr [.num 1, .num 2] [])])
      [.fld "a", .fld "length", .fld "x"] (.num 9) =
      JValue.obj [("a", .arr [.num 1, .num 2] [])] :=
  ⟨rfl, rfl⟩

/-- C4 (amended): whenever the vivifying walk passes its container
checks, no segment is the field name `length` (which collides with the
numeric array `length` own property), and every name segment of the walk
finds an own property — missing levels being reached through index
segments or `null`-valued properties, the cases where the engine really
reads `undefined`/`null` and vivifies — the edit always completes and
publishes, auto-vivifying the missing slots.  A name segment missing as
an own property is excluded because JS then reads the inherited
`Array.prototype`/`Object.prototype` member (`push`, `map`, `toString`,
...), skips vivification and aborts on the `typeof` check. -/
theorem c4_mismatch_recovery (doc : JValue) (p : List Seg) (v : JValue)
    (hw : walkOk (jsonCopy doc) p = true) (hn : noLengthSeg p = true)
    (hown : noUndefFldRead (jsonCopy doc) p = true) :
    (handleValueChange doc p v).isSome :=
  walkOk_setWalk_isSome p (jsonCopy doc) v hw hn

/-- Witness for C4 at a concrete kind-mismatching input: an index segment
against an object container (the engine vivifies the missing slot,
stores under the stringified key and completes). -/
theorem c4_mismatch_recovery_witness :
    walkOk (jsonCopy (JValue.obj [("a", .obj [])])) [.fld "a", .idx 0, .fld "b"] = true ∧
    noLengthSeg [Seg.fld "a", .idx 0, .fld "b"] = true ∧
    noUndefFldRead (jsonCopy (JValue.obj [("a", .obj [])]))
      [Seg.fld "a", .idx 0, .fld "b"] = true ∧
    (handleValueChange (JValue.obj [("a", .obj [])]) [.fld "a", .idx 0, .fld "b"]
      (.num 5)).isSome :=
  ⟨rfl, rfl, rfl, c4_mismatch_recovery (JValue.obj [("a", .obj [])])
    [.fld "a", .idx 0, .fld "b"] (.num 5) rfl rfl rfl⟩

/-- C5 counterexample: a `NumberLeaf` with no declared `min` synthesizes
to `1` (the source comment says "Let's use 1 for CIA"), not `0`. -/
theorem c5_counterexample :
    generateDefaultValue [] 1 (.znumber []) = some (.num 1) ∧
    JValue.num 1 ≠ JValue.num 0 :=
  ⟨rfl, by simp⟩

/-- C5 (amended): for every `NumberLeaf`, synthesis returns the declared
`min` bound when one is declared, and `1` otherwise. -/
theorem c5_number_default (env : SchemaEnv) (checks : List ZCheck) (fuel : Nat) :
    generateDefaultValue env (fuel+1) (.znumber checks) =
      some (.num ((findMinCheck checks).getD 1)) := by
  cases h : findMinCheck checks <;>
    simp [generateDefaultValue, getBaseType, h]

/-- C6 counterexample: `set` with the empty address does not replace the
document; on an object document it adds a property literally named
`"undefined"` (the stringified missing final key) holding the value. -/
theorem c6_counterexample :
    handleValueChange (JValue.obj [("a", .num 1)]) [] (.num 2) =
      some (.obj [("a", .num 1), ("undefined", .num 2)]) ∧
    JValue.obj [("a", .num 1), ("undefined", .num 2)] ≠ JValue.num 2 :=
  ⟨rfl, fun h => nomatch h⟩

/-- C6 (amended): the empty address is vacuously accepted but does not
mean "replace the whole document": on an object document the value is
stored under the key `"undefined"` in a copy of the document, and on a
primitive document nothing is published at all. -/
theorem c6_empty_address_behavior :
    (∀ es v, handleValueChange (JValue.obj es) [] v =
      some (.obj (objSet (jsonFields es) "undefined" v))) ∧
    (∀ s v, handleValueChange (JValue.str s) [] v = none) ∧
    (∀ n v, handleValueChange (JValue.num n) [] v = none) :=
  ⟨fun es v => by simp [handleValueChange, jsonCopy, setWalk, isContainer, assignKey, Seg.keyStr],
   fun s v => by simp [handleValueChange, jsonCopy, setWalk, isContainer],
   fun n v => by simp [handleValueChange, jsonCopy, setWalk, isContainer]⟩

/-- C7 counterexample: `getBaseType` does not strip `ZodOptional` — it
returns the optional node itself, which is not one of the four terminal
kinds. -/
theorem c7_counterexample :
    getBaseType [] 5 (.zoptional .zstring) = some (.zoptional .zstring) ∧
    isTerminalShape (.zoptional .zstring) = false :=
  ⟨rfl, rfl⟩

/-- C7 (amended): `getBaseType` strips exactly the `ZodDefault` and
`ZodLazy` wrapper layers: whatever node it returns is neither of those —
but it need not be one of the four terminal kinds (optional and other
wrappers are returned as is). -/
theorem c7_resolve_strips_wrappers (env : SchemaEnv) :
    ∀ (fuel : Nat) (s b : Zod), getBaseType env fuel s = some b →
      isZodDefault b = false ∧ isZodLazy b = false := by
  intro fuel
  induction fuel with
  | zero => intro s b h; simp [getBaseType] at h
  | succ m ih =>
    intro s b h
    cases s with
    | zdefault inner => exact ih inner b (by simpa [getBaseType] using h)
    | zlazy name =>
      simp only [getBaseType] at h
      cases he : envLookup env name with
      | none => rw [he] at h; simp at h
      | some t => rw [he] at h; exact ih t b h
    | zstring => simp [getBaseType] at h; subst h; exact ⟨rfl, rfl⟩
    | znumber checks => simp [getBaseType] at h; subst h; exact ⟨rfl, rfl⟩
    | zarray e => simp [getBaseType] at h; subst h; exact ⟨rfl, rfl⟩
    | zobject shape => simp [getBaseType] at h; subst h; exact ⟨rfl, rfl⟩
    | zoptional inner => simp [getBaseType] at h; subst h; exact ⟨rfl, rfl⟩
    | zother nm => simp [getBaseType] at h; subst h; exact ⟨rfl, rfl⟩

/-- Witness for C7 at a concrete input: unwrapping a default wrapper
reaches the inner string node. -/
theorem c7_resolve_strips_wrappers_witness :
    getBaseType [] 3 (.zdefault .zstring) = some .zstring ∧
    isZodDefault Zod.zstring = false ∧ isZodLazy Zod.zstring = false :=
  ⟨rfl, (c7_resolve_strips_wrappers [] 3 (.zdefault .zstring) .zstring rfl).1,
    (c7_resolve_strips_wrappers [] 3 (.zdefault .zstring) .zstring rfl).2⟩

/-- C10 (confirmed): when the walk reaches an existing intermediate value
that is neither an object nor an array, the operation is atomic in
failure — the change callback is never invoked (`none`) and the
observable document is the unchanged input. -/
theorem c10_failed_walk_publishes_nothing (doc : JValue) (p : List Seg) (v : JValue)
    (h : walkOk (jsonCopy doc) p = false) :
    handleValueChange doc p v = none ∧ setOp doc p v = doc := by
  have h1 := walkOk_false_setWalk_none p (jsonCopy doc) v h
  exact ⟨h1, by simp [setOp, handleValueChange, h1]⟩

/-- Witness for C10 at a concrete input. -/
theorem c10_failed_walk_publishes_nothing_witness :
    walkOk (jsonCopy (JValue.obj [("a", .str "x")])) [.fld "a", .fld "b"] = false ∧
    handleValueChange (JValue.obj [("a", .str "x")]) [.fld "a", .fld "b"] (.num 7) = none ∧
    setOp (JValue.obj [("a", .str "x")]) [.fld "a", .fld "b"] (.num 7) =
      JValue.obj [("a", .str "x")] :=
  ⟨rfl,
    (c10_failed_walk_publishes_nothing (JValue.obj [("a", .str "x")])
      [.fld "a", .fld "b"] (.num 7) rfl).1,
    (c10_failed_walk_publishes_nothing (JValue.obj [("a", .str "x")])
      [.fld "a", .fld "b"] (.num 7) rfl).2⟩

/-! ## Lemmas for the insert/remove inverse claim -/

theorem setIdx_self : ∀ (es : List JValue) (n : Nat) (v : JValue),
    es[n]? = some v → es.set n v = es := by
  intro es
  induction es with
  | nil => intro n v h; simp at h
  | cons e rest ih =>
    intro n v h
    cases n with
    | zero => simp at h; simp [h]
    | succ m => simp at h; simp [ih m v h]

theorem getD_of_getElem? (es : List JValue) (n : Nat) (c : JValue)
    (h : es[n]? = some c) : es.getD n .undef = c := by
  simp [List.getD_eq_getElem?_getD, h]

theorem pathFits_isContainer (root : JValue) (k : Seg) (rest : List Seg)
    (h : pathFits root (k :: rest) = true) : isContainer root = true := by
  cases root <;> cases k <;> simp [pathFits, isContainer] at h ⊢

theorem vivify_of_container (c : JValue) (r : Seg) (h : isContainer c = true) :
    vivify c r = c := by
  cases c <;> simp [isContainer] at h <;> simp [vivify]

/-- A container stays a container under `writeAt` (for nonempty paths). -/
theorem writeAt_isContainer : ∀ (p : List Seg) (root v : JValue), p ≠ [] →
    isContainer root = true → isContainer (writeAt root p v) = true := by
  intro p
  cases p with
  | nil => intro root v h; exact absurd rfl h
  | cons k p' =>
    intro root v _ hc
    cases p' with
    | nil =>
      cases root with
      | obj es => cases k <;> simp [writeAt, assignKey, isContainer]
      | arr es props =>
        cases k with
        | idx n => simp [writeAt, assignKey, isContainer]
        | fld s =>
          by_cases hs : s = "length"
          · subst hs
            cases v with
            | num a =>
              by_cases hcond : 0 ≤ a ∧ a < 4294967296
              · simp [writeAt, assignKey, hcond, isContainer]
              · simp [writeAt, assignKey, hcond, isContainer]
            | undef => simp [writeAt, assignKey, isContainer]
            | jnull => simp [writeAt, assignKey, isContainer]
            | str t => simp [writeAt, assignKey, isContainer]
            | obj o => simp [writeAt, assignKey, isContainer]
            | arr a b => simp [writeAt, assignKey, isContainer]
          · simp [writeAt, assignKey, hs, isContainer]
      | undef => simp [isContainer] at hc
      | jnull => simp [isContainer] at hc
      | str s => simp [isContainer] at hc
      | num n => simp [isContainer] at hc
    | cons r rest =>
      cases root with
      | obj es => cases k <;> simp [writeAt, assignKey, isContainer]
      | arr es props =>
        cases k with
        | idx n => simp [writeAt, assignKey, isContainer]
        | fld s =>
          by_cases hs : s = "length"
          · subst hs
            simp only [writeAt]
            generalize writeAt (jsGet (JValue.arr es props) (Seg.fld "length")) (r :: rest) v = m
            cases m with
            | num a =>
              by_cases hcond : 0 ≤ a ∧ a < 4294967296
              · simp [assignKey, hcond, isContainer]
              · simp [assignKey, hcond, isContainer]
            | undef => simp [assignKey, isContainer]
            | jnull => simp [assignKey, isContainer]
            | str t => simp [assignKey, isContainer]
            | obj o => simp [assignKey, isContainer]
            | arr a b => simp [assignKey, isContainer]
          · simp [writeAt, assignKey, hs, isContainer]
      | undef => simp [isContainer] at hc
      | jnull => simp [isContainer] at hc
      | str s => simp [isContainer] at hc
      | num n => simp [isContainer] at hc

/-- Along an existing kind-matching address, the walk publishes exactly
the functional update `writeAt`. -/
theorem setWalk_pathFits : ∀ (p : List Seg) (root v : JValue),
    pathFits root p = true → p ≠ [] →
    setWalk root p v = some (writeAt root p v) := by
  intro p
  induction p with
  | nil => intro root v _ h; exact absurd rfl h
  | cons k p' ih =>
    intro root v hf _
    cases p' with
    | nil =>
      cases root with
      | obj es =>
        cases k with
        | fld s => simp [setWalk, isContainer, writeAt, assignKey]
        | idx n => simp [pathFits] at hf
      | arr es props =>
        cases k with
        | idx n => simp [setWalk, isContainer, writeAt, assignKey]
        | fld s => simp [pathFits] at hf
      | undef => simp [pathFits] at hf
      | jnull => simp [pathFits] at hf
      | str s => simp [pathFits] at hf
      | num n => simp [pathFits] at hf
    | cons r rest =>
      have hcroot := pathFits_isContainer root k (r :: rest) hf
      cases root with
      | obj es =>
        cases k with
        | fld s =>
          simp only [pathFits] at hf
          cases hchild : objGetOpt es s with
          | none => rw [hchild] at hf; simp at hf
          | some child =>
            rw [hchild] at hf
            have hcc : isContainer child = true :=
              pathFits_isContainer child r rest hf
            have hget : jsGet (JValue.obj es) (Seg.fld s) = child := by
              simp only [jsGet, Seg.keyStr]
              exact objGetOpt_eq_objGet es s child hchild
            have hrec := ih child v hf (by simp)
            simp only [setWalk, isContainer, if_true, hget,
              vivify_of_container child r hcc, hrec, writeAt, assignKey,
              Option.getD_some]
        | idx n => simp [pathFits] at hf
      | arr es props =>
        cases k with
        | idx n =>
          simp only [pathFits] at hf
          cases hchild : es[n]? with
          | none => rw [hchild] at hf; simp at hf
          | some child =>
            rw [hchild] at hf
            have hcc : isContainer child = true :=
              pathFits_isContainer child r rest hf
            have hget : jsGet (JValue.arr es props) (Seg.idx n) = child := by
              simp only [jsGet]
              exact getD_of_getElem? es n child hchild
            have hrec := ih child v hf (by simp)
            simp only [setWalk, isContainer, if_true, hget,
              vivify_of_container child r hcc, hrec, writeAt, assignKey,
              Option.getD_some]
        | fld s => simp [pathFits] at hf
      | undef => simp [pathFits] at hf
      | jnull => simp [pathFits] at hf
      | str s => simp [pathFits] at hf
      | num n => simp [pathFits] at hf

theorem container_ne_undef (c : JValue) (h : isContainer c = true) : c ≠ .undef := by
  cases c <;> simp [isContainer] at h ⊢

/-- Writing along an existing kind-matching address preserves the
address's fit. -/
theorem pathFits_writeAt : ∀ (p : List Seg) (root v : JValue),
    pathFits root p = true → p ≠ [] → pathFits (writeAt root p v) p = true := by
  intro p
  induction p with
  | nil => intro root v _ h; exact absurd rfl h
  | cons k p' ih =>
    intro root v hf _
    cases p' with
    | nil =>
      cases root with
      | obj es =>
        cases k with
        | fld s =>
          simp only [writeAt, assignKey, Option.getD_some, Seg.keyStr]
          simp only [pathFits, objGetOpt_objSet]
        | idx n => simp [pathFits] at hf
      | arr es props =>
        cases k with
        | idx n =>
          simp only [pathFits] at hf
          cases hchild : es[n]? with
          | none => rw [hchild] at hf; simp at hf
          | some child =>
            have hlt : n < es.length := by
              by_contra hge
              rw [List.getElem?_eq_none (by omega)] at hchild
              simp at hchild
            simp only [writeAt, assignKey, Option.getD_some, arrSet, if_pos hlt]
            simp only [pathFits]
            rw [List.getElem?_set_eq_of_lt _ hlt]
        | fld s => simp [pathFits] at hf
      | undef => simp [pathFits] at hf
      | jnull => simp [pathFits] at hf
      | str s => simp [pathFits] at hf
      | num n => simp [pathFits] at hf
    | cons r rest =>
      cases root with
      | obj es =>
        cases k with
        | fld s =>
          simp only [pathFits] at hf
          cases hchild : objGetOpt es s with
          | none => rw [hchild] at hf; simp at hf
          | some child =>
            rw [hchild] at hf
            have hget : jsGet (JValue.obj es) (Seg.fld s) = child := by
              simp only [jsGet, Seg.keyStr]
              exact objGetOpt_eq_objGet es s child hchild
            simp only [writeAt, assignKey, Option.getD_some, Seg.keyStr, hget]
            simp only [pathFits, objGetOpt_objSet]
            exact ih child v hf (by simp)
        | idx n => simp [pathFits] at hf
      | arr es props =>
        cases k with
        | idx n =>
          simp only [pathFits] at hf
          cases hchild : es[n]? with
          | none => rw [hchild] at hf; simp at hf
          | some child =>
            rw [hchild] at hf
            have hlt : n < es.length := by
              by_contra hge
              rw [List.getElem?_eq_none (by omega)] at hchild
              simp at hchild
            have hget : jsGet (JValue.arr es props) (Seg.idx n) = child := by
              simp only [jsGet]
              exact getD_of_getElem? es n child hchild
            simp only [writeAt, assignKey, Option.getD_some, hget, arrSet, if_pos hlt]
            simp only [pathFits]
            rw [List.getElem?_set_eq_of_lt _ hlt]
            simpa using ih child v hf (by simp)
        | fld s => simp [pathFits] at hf
      | undef => simp [pathFits] at hf
      | jnull => simp [pathFits] at hf
      | str s => simp [pathFits] at hf
      | num n => simp [pathFits] at hf

/-- Two writes along the same existing address collapse to the second. -/
theorem writeAt_writeAt : ∀ (p : List Seg) (root v1 v2 : JValue),
    pathFits root p = true → p ≠ [] →
    writeAt (writeAt root p v1) p v2 = writeAt root p v2 := by
  intro p
  induction p with
  | nil => intro root v1 v2 _ h; exact absurd rfl h
  | cons k p' ih =>
    intro root v1 v2 hf _
    cases p' with
    | nil =>
      cases root with
      | obj es =>
        cases k with
        | fld s =>
          simp only [writeAt, assignKey, Option.getD_some, Seg.keyStr]
          rw [objSet_objSet]
        | idx n => simp [pathFits] at hf
      | arr es props =>
        cases k with
        | idx n =>
          simp only [pathFits] at hf
          cases hchild : es[n]? with
          | none => rw [hchild] at hf; simp at hf
          | some child =>
            have hlt : n < es.length := by
              by_contra hge
              rw [List.getElem?_eq_none (by omega)] at hchild
              simp at hchild
            simp only [writeAt, assignKey, Option.getD_some, arrSet, if_pos hlt,
              List.length_set, List.set_set]
        | fld s => simp [pathFits] at hf
      | undef => simp [pathFits] at hf
      | jnull => simp [pathFits] at hf
      | str s => simp [pathFits] at hf
      | num n => simp [pathFits] at hf
    | cons r rest =>
      cases root with
      | obj es =>
        cases k with
        | fld s =>
          simp only [pathFits] at hf
          cases hchild : objGetOpt es s with
          | none => rw [hchild] at hf; simp at hf
          | some child =>
            rw [hchild] at hf
            have hget : jsGet (JValue.obj es) (Seg.fld s) = child := by
              simp only [jsGet, Seg.keyStr]
              exact objGetOpt_eq_objGet es s child hchild
            simp only [writeAt, assignKey, Option.getD_some, Seg.keyStr, hget]
            simp only [jsGet, Seg.keyStr, objGet_objSet, objSet_objSet]
            rw [ih child v1 v2 hf (by simp)]
        | idx n => simp [pathFits] at hf
      | arr es props =>
        cases k with
        | idx n =>
          simp only [pathFits] at hf
          cases hchild : es[n]? with
          | none => rw [hchild] at hf; simp at hf
          | some child =>
            rw [hchild] at hf
            have hlt : n < es.length := by
              by_contra hge
              rw [List.getElem?_eq_none (by omega)] at hchild
              simp at hchild
            have hget : jsGet (JValue.arr es props) (Seg.idx n) = child := by
              simp only [jsGet]
              exact getD_of_getElem? es n child hchild
            simp only [writeAt, assignKey, Option.getD_some, hget, arrSet, if_pos hlt,
              List.length_set]
            simp only [jsGet]
            rw [List.getD_eq_getElem?_getD, List.getElem?_set_self (by omega)]
            simp only [Option.getD_some, List.set_set]
            rw [ih child v1 v2 hf (by simp)]
        | fld s => simp [pathFits] at hf
      | undef => simp [pathFits] at hf
      | jnull => simp [pathFits] at hf
      | str s => simp [pathFits] at hf
      | num n => simp [pathFits] at hf

theorem getPath_cons (v : JValue) (k : Seg) (p : List Seg) :
    getPath v (k :: p) = getPath (jsGet v k) p := rfl

/-- Writing back the value already present along an existing address is
the identity. -/
theorem writeAt_getPath_self : ∀ (p : List Seg) (root : JValue),
    pathFits root p = true → p ≠ [] →
    writeAt root p (getPath root p) = root := by
  intro p
  induction p with
  | nil => intro root _ h; exact absurd rfl h
  | cons k p' ih =>
    intro root hf _
    cases p' with
    | nil =>
      cases root with
      | obj es =>
        cases k with
        | fld s =>
          simp only [pathFits] at hf
          cases hchild : objGetOpt es s with
          | none => rw [hchild] at hf; simp at hf
          | some child =>
            have hget : jsGet (JValue.obj es) (Seg.fld s) = child := by
              simp only [jsGet, Seg.keyStr]
              exact objGetOpt_eq_objGet es s child hchild
            simp only [getPath, List.foldl_cons, List.foldl_nil, hget]
            simp only [writeAt, assignKey, Option.getD_some, Seg.keyStr]
            rw [objSet_self es s child hchild]
        | idx n => simp [pathFits] at hf
      | arr es props =>
        cases k with
        | idx n =>
          simp only [pathFits] at hf
          cases hchild : es[n]? with
          | none => rw [hchild] at hf; simp at hf
          | some child =>
            have hlt : n < es.length := by
              by_contra hge
              rw [List.getElem?_eq_none (by omega)] at hchild
              simp at hchild
            have hget : jsGet (JValue.arr es props) (Seg.idx n) = child := by
              simp only [jsGet]
              exact getD_of_getElem? es n child hchild
            simp only [getPath, List.foldl_cons, List.foldl_nil, hget]
            simp only [writeAt, assignKey, Option.getD_some, arrSet, if_pos hlt]
            rw [setIdx_self es n child hchild]
        | fld s => simp [pathFits] at hf
      | undef => simp [pathFits] at hf
      | jnull => simp [pathFits] at hf
      | str s => simp [pathFits] at hf
      | num n => simp [pathFits] at hf
    | cons r rest =>
      cases root with
      | obj es =>
        cases k with
        | fld s =>
          simp only [pathFits] at hf
          cases hchild : objGetOpt es s with
          | none => rw [hchild] at hf; simp at hf
          | some child =>
            rw [hchild] at hf
            have hget : jsGet (JValue.obj es) (Seg.fld s) = child := by
              simp only [jsGet, Seg.keyStr]
              exact objGetOpt_eq_objGet es s child hchild
            rw [getPath_cons, hget]
            simp only [writeAt, assignKey, Option.getD_some, Seg.keyStr, hget]
            rw [ih child hf (by simp), objSet_self es s child hchild]
        | idx n => simp [pathFits] at hf
      | arr es props =>
        cases k with
        | idx n =>
          simp only [pathFits] at hf
          cases hchild : es[n]? with
          | none => rw [hchild] at hf; simp at hf
          | some child =>
            rw [hchild] at hf
            have hlt : n < es.length := by
              by_contra hge
              rw [List.getElem?_eq_none (by omega)] at hchild
              simp at hchild
            have hget : jsGet (JValue.arr es props) (Seg.idx n) = child := by
              simp only [jsGet]
              exact getD_of_getElem? es n child hchild
            rw [getPath_cons, hget]
            simp only [writeAt, assignKey, Option.getD_some, arrSet, if_pos hlt, hget]
            rw [ih child hf (by simp), setIdx_self es n child hchild]
        | fld s => simp [pathFits] at hf
      | undef => simp [pathFits] at hf
      | jnull => simp [pathFits] at hf
      | str s => simp [pathFits] at hf
      | num n => simp [pathFits] at hf

theorem jsonCopy_ne_undef (v : JValue) (h : v ≠ .undef) : jsonCopy v ≠ .undef := by
  cases v with
  | undef => exact absurd rfl h
  | jnull => simp [jsonCopy]
  | str s => simp [jsonCopy]
  | num n => simp [jsonCopy]
  | obj es => simp [jsonCopy]
  | arr es props => simp [jsonCopy]

theorem jsonFields_cons_ne (k : String) (c : JValue) (rest : List (String × JValue))
    (h : c ≠ .undef) :
    jsonFields ((k, c) :: rest) = (k, jsonCopy c) :: jsonFields rest := by
  have hc := jsonCopy_ne_undef c h
  cases hcopy : jsonCopy c with
  | undef => exact absurd hcopy hc
  | jnull => simp [jsonFields, hcopy]
  | str s => simp [jsonFields, hcopy]
  | num n => simp [jsonFields, hcopy]
  | obj o => simp [jsonFields, hcopy]
  | arr a b => simp [jsonFields, hcopy]

theorem jsonFields_cons_undef (k : String) (rest : List (String × JValue)) :
    jsonFields ((k, JValue.undef) :: rest) = jsonFields rest := by
  simp [jsonFields, jsonCopy]

theorem jsonElems_cons (c : JValue) (rest : List JValue) (h : c ≠ .undef) :
    jsonElems (c :: rest) = jsonCopy c :: jsonElems rest := by
  have hc := jsonCopy_ne_undef c h
  cases hcopy : jsonCopy c with
  | undef => exact absurd hcopy hc
  | jnull => simp [jsonElems, hcopy]
  | str s => simp [jsonElems, hcopy]
  | num n => simp [jsonElems, hcopy]
  | obj o => simp [jsonElems, hcopy]
  | arr a b => simp [jsonElems, hcopy]

theorem jsonElems_cons_undef (rest : List JValue) :
    jsonElems (JValue.undef :: rest) = JValue.jnull :: jsonElems rest := by
  simp [jsonElems, jsonCopy]

theorem jsonElems_length : ∀ es : List JValue, (jsonElems es).length = es.length := by
  intro es
  induction es with
  | nil => rfl
  | cons v rest ih =>
    by_cases hv : v = JValue.undef
    · subst hv; simp [jsonElems_cons_undef, ih]
    · simp [jsonElems_cons v rest hv, ih]

/-- Reading a present, defined field from the copied property list gives
the copy of the original value. -/
theorem jsonFields_objGet : ∀ (es : List (String × JValue)) (k : String) (c : JValue),
    objGetOpt es k = some c → c ≠ .undef →
    objGet (jsonFields es) k = jsonCopy c := by
  intro es
  induction es with
  | nil => intro k c h; simp [objGetOpt] at h
  | cons e rest ih =>
    intro k c h hne
    obtain ⟨k1, v1⟩ := e
    by_cases hk : k1 = k
    · subst hk
      simp [objGetOpt] at h
      rw [← h] at hne ⊢
      rw [jsonFields_cons_ne k1 v1 rest hne]
      simp [objGet]
    · simp [objGetOpt, hk] at h
      by_cases hv1 : v1 = JValue.undef
      · subst hv1
        rw [jsonFields_cons_undef]
        exact ih k c h hne
      · rw [jsonFields_cons_ne k1 v1 rest hv1]
        simp [objGet, hk]
        exact ih k c h hne

theorem jsonElems_getElem? : ∀ (es : List JValue) (n : Nat) (c : JValue),
    es[n]? = some c → c ≠ .undef →
    (jsonElems es)[n]? = some (jsonCopy c) := by
  intro es
  induction es with
  | nil => intro n c h; simp at h
  | cons v rest ih =>
    intro n c h hne
    cases n with
    | zero =>
      simp at h
      subst h
      rw [jsonElems_cons v rest hne]
      simp
    | succ m =>
      simp at h
      by_cases hv : v = JValue.undef
      · subst hv
        rw [jsonElems_cons_undef]
        simpa using ih m c h hne
      · rw [jsonElems_cons v rest hv]
        simpa using ih m c h hne

/-- Updating a present, defined field commutes with the JSON copy. -/
theorem jsonFields_objSet : ∀ (es : List (String × JValue)) (k : String) (c w : JValue),
    objGetOpt es k = some c → c ≠ .undef → w ≠ .undef →
    jsonFields (objSet es k w) = objSet (jsonFields es) k (jsonCopy w) := by
  intro es
  induction es with
  | nil => intro k c w h; simp [objGetOpt] at h
  | cons e rest ih =>
    intro k c w h hcne hwne
    obtain ⟨k1, v1⟩ := e
    by_cases hk : k1 = k
    · subst hk
      simp [objGetOpt] at h
      simp only [objSet, if_pos rfl, if_true]
      rw [← h] at hcne
      rw [jsonFields_cons_ne k1 w rest hwne, jsonFields_cons_ne k1 v1 rest hcne]
      simp [objSet]
    · simp [objGetOpt, hk] at h
      simp only [objSet, if_neg hk]
      by_cases hv1 : v1 = JValue.undef
      · subst hv1
        rw [jsonFields_cons_undef k1 (objSet rest k w), jsonFields_cons_undef k1 rest]
        exact ih k c w h hcne hwne
      · rw [jsonFields_cons_ne k1 v1 (objSet rest k w) hv1,
          jsonFields_cons_ne k1 v1 rest hv1]
        simp only [objSet, if_neg hk]
        rw [ih k c w h hcne hwne]

/-- Updating an in-range, defined element commutes with the JSON copy. -/
theorem jsonElems_set : ∀ (es : List JValue) (n : Nat) (w : JValue),
    n < es.length → w ≠ .undef →
    jsonElems (es.set n w) = (jsonElems es).set n (jsonCopy w) := by
  intro es
  induction es with
  | nil => intro n w h; simp at h
  | cons v rest ih =>
    intro n w hlt hwne
    cases n with
    | zero =>
      simp only [List.set_cons_zero]
      rw [jsonElems_cons w rest hwne]
      by_cases hv : v = JValue.undef
      · subst hv; rw [jsonElems_cons_undef]; simp
      · rw [jsonElems_cons v rest hv]; simp
    | succ m =>
      simp only [List.set_cons_succ]
      have hm : m < rest.length := by simp at hlt; omega
      by_cases hv : v = JValue.undef
      · subst hv
        rw [jsonElems_cons_undef (rest.set m w), jsonElems_cons_undef rest]
        simp [ih m w hm hwne]
      · rw [jsonElems_cons v (rest.set m w) hv, jsonElems_cons v rest hv]
        simp [ih m w hm hwne]

/-- The JSON deep copy commutes with a write along an existing
kind-matching address whose slot holds a defined value, when the written
value is defined: copying the updated document is updating the copied
document with the copied value. -/
theorem jsonCopy_writeAt : ∀ (p : List Seg) (root v : JValue),
    pathFits root p = true → p ≠ [] → getPath root p ≠ .undef → v ≠ .undef →
    jsonCopy (writeAt root p v) = writeAt (jsonCopy root) p (jsonCopy v) := by
  intro p
  induction p with
  | nil => intro root v _ h; exact absurd rfl h
  | cons k p' ih =>
    intro root v hf _ hslot hvne
    cases p' with
    | nil =>
      cases root with
      | obj es =>
        cases k with
        | fld s =>
          simp only [pathFits] at hf
          cases hchild : objGetOpt es s with
          | none => rw [hchild] at hf; simp at hf
          | some child =>
            have hget : jsGet (JValue.obj es) (Seg.fld s) = child := by
              simp only [jsGet, Seg.keyStr]
              exact objGetOpt_eq_objGet es s child hchild
            have hcne : child ≠ JValue.undef := by
              rw [getPath_cons, hget] at hslot
              simpa [getPath] using hslot
            simp only [writeAt, jsonCopy, assignKey, Option.getD_some, Seg.keyStr]
            rw [jsonFields_objSet es s child v hchild hcne hvne]
        | idx n => simp [pathFits] at hf
      | arr es props =>
        cases k with
        | idx n =>
          simp only [pathFits] at hf
          cases hchild : es[n]? with
          | none => rw [hchild] at hf; simp at hf
          | some child =>
            have hlt : n < es.length := by
              by_contra hge
              rw [List.getElem?_eq_none (by omega)] at hchild
              simp at hchild
            have hget : jsGet (JValue.arr es props) (Seg.idx n) = child := by
              simp only [jsGet]
              exact getD_of_getElem? es n child hchild
            have hcne : child ≠ JValue.undef := by
              rw [getPath_cons, hget] at hslot
              simpa [getPath] using hslot
            simp only [writeAt, assignKey, Option.getD_some, arrSet, if_pos hlt,
              jsonElems_length, jsonCopy]
            rw [jsonElems_set es n v hlt hvne]
        | fld s => simp [pathFits] at hf
      | undef => simp [pathFits] at hf
      | jnull => simp [pathFits] at hf
      | str s => simp [pathFits] at hf
      | num n => simp [pathFits] at hf
    | cons r rest =>
      cases root with
      | obj es =>
        cases k with
        | fld s =>
          simp only [pathFits] at hf
          cases hchild : objGetOpt es s with
          | none => rw [hchild] at hf; simp at hf
          | some child =>
            rw [hchild] at hf
            have hcc : isContainer child = true := pathFits_isContainer child r rest hf
            have hcne : child ≠ JValue.undef := container_ne_undef child hcc
            have hget : jsGet (JValue.obj es) (Seg.fld s) = child := by
              simp only [jsGet, Seg.keyStr]
              exact objGetOpt_eq_objGet es s child hchild
            have hslot2 : getPath child (r :: rest) ≠ JValue.undef := by
              rw [getPath_cons, hget] at hslot
              exact hslot
            have hmcont : isContainer (writeAt child (r :: rest) v) = true :=
              writeAt_isContainer (r :: rest) child v (by simp) hcc
            have hmne : writeAt child (r :: rest) v ≠ JValue.undef :=
              container_ne_undef _ hmcont
            simp only [writeAt, jsonCopy, assignKey, Option.getD_some, Seg.keyStr, hget]
            rw [jsonFields_objSet es s child _ hchild hcne hmne]
            rw [ih child v hf (by simp) hslot2 hvne]
            have hgetc : jsGet (JValue.obj (jsonFields es)) (Seg.fld s) = jsonCopy child := by
              simp only [jsGet, Seg.keyStr]
              exact jsonFields_objGet es s child hchild hcne
            rw [hgetc]
        | idx n => simp [pathFits] at hf
      | arr es props =>
        cases k with
        | idx n =>
          simp only [pathFits] at hf
          cases hchild : es[n]? with
          | none => rw [hchild] at hf; simp at hf
          | some child =>
            rw [hchild] at hf
            have hlt : n < es.length := by
              by_contra hge
              rw [List.getElem?_eq_none (by omega)] at hchild
              simp at hchild
            have hcc : isContainer child = true := pathFits_isContainer child r rest hf
            have hcne : child ≠ JValue.undef := container_ne_undef child hcc
            have hget : jsGet (JValue.arr es props) (Seg.idx n) = child := by
              simp only [jsGet]
              exact getD_of_getElem? es n child hchild
            have hslot2 : getPath child (r :: rest) ≠ JValue.undef := by
              rw [getPath_cons, hget] at hslot
              exact hslot
            have hmcont : isContainer (writeAt child (r :: rest) v) = true :=
              writeAt_isContainer (r :: rest) child v (by simp) hcc
            have hmne : writeAt child (r :: rest) v ≠ JValue.undef :=
              container_ne_undef _ hmcont
            simp only [writeAt, assignKey, Option.getD_some, hget, arrSet, if_pos hlt,
              jsonElems_length, jsonCopy]
            rw [jsonElems_set es n _ hlt hmne]
            rw [ih child v hf (by simp) hslot2 hvne]
            have hgetc : jsGet (JValue.arr (jsonElems es) []) (Seg.idx n) = jsonCopy child := by
              simp only [jsGet]
              rw [List.getD_eq_getElem?_getD, jsonElems_getElem? es n child hchild hcne]
              simp
            rw [hgetc]
        | fld s => simp [pathFits] at hf
      | undef => simp [pathFits] at hf
      | jnull => simp [pathFits] at hf
      | str s => simp [pathFits] at hf
      | num n => simp [pathFits] at hf

/-- C8 counterexample: on a document with no array at the address, the
insert auto-vivifies an array that the removal then leaves behind empty —
the result is not deep-equal to the original document. -/
theorem c8_counterexample :
    removeArrayItem (insertArrayItemWith (JValue.obj []) [.fld "items"] (.num 1))
      [.fld "items"] 0 = JValue.obj [("items", .arr [] [])] ∧
    JValue.obj [("items", .arr [] [])] ≠ JValue.obj [] :=
  ⟨rfl, by simp⟩

/-- C8 (amended): appending an item and removing it at the last index is
the identity on documents that already hold an expando-free array at the
(nonempty, kind-matching) address and contain no `undefined` values (so
that the `JSON.parse(JSON.stringify(...))` copy is the identity). -/
theorem c8_insert_remove_inverse (doc : JValue) (p : List Seg) (es : List JValue)
    (item : JValue) (hnorm : jsonCopy doc = doc) (hfits : pathFits doc p = true)
    (hdoc : getPath doc p = .arr es []) (hp : p ≠ []) :
    removeArrayItem (insertArrayItemWith doc p item) p es.length = doc := by
  have harr : arrayDataAt doc p = es := by simp [arrayDataAt, hdoc]
  have hw1 : setWalk doc p (JValue.arr (es ++ [item]) []) =
      some (writeAt doc p (JValue.arr (es ++ [item]) [])) :=
    setWalk_pathFits p doc _ hfits hp
  have hmid : insertArrayItemWith doc p item =
      writeAt doc p (JValue.arr (es ++ [item]) []) := by
    simp [insertArrayItemWith, setOp, handleValueChange, harr, hnorm, hw1]
  have hmidget : getPath (writeAt doc p (JValue.arr (es ++ [item]) [])) p =
      JValue.arr (es ++ [item]) [] :=
    setWalk_roundtrip p doc _ _ hp hw1
  have harr2 : arrayDataAt (writeAt doc p (JValue.arr (es ++ [item]) [])) p =
      es ++ [item] := by
    simp [arrayDataAt, hmidget]
  have herase : (es ++ [item]).eraseIdx es.length = es := by
    simp [List.eraseIdx_append_of_length_le]
  have hne_undef : getPath doc p ≠ JValue.undef := by
    rw [hdoc]; intro h; nomatch h
  have hcopy : jsonCopy (writeAt doc p (JValue.arr (es ++ [item]) [])) =
      writeAt doc p (JValue.arr (jsonElems (es ++ [item])) []) := by
    rw [jsonCopy_writeAt p doc _ hfits hp hne_undef (by intro h; nomatch h), hnorm]
    simp only [jsonCopy]
  have hfits2 : pathFits (writeAt doc p (JValue.arr (jsonElems (es ++ [item])) [])) p =
      true := pathFits_writeAt p doc _ hfits hp
  have hw2 : setWalk (writeAt doc p (JValue.arr (jsonElems (es ++ [item])) [])) p
      (JValue.arr es []) =
      some (writeAt (writeAt doc p (JValue.arr (jsonElems (es ++ [item])) [])) p
        (JValue.arr es [])) :=
    setWalk_pathFits p _ _ hfits2 hp
  have hcollapse : writeAt (writeAt doc p (JValue.arr (jsonElems (es ++ [item])) [])) p
      (JValue.arr es []) = writeAt doc p (JValue.arr es []) :=
    writeAt_writeAt p doc _ _ hfits hp
  have hself : writeAt doc p (JValue.arr es []) = doc := by
    have h2 := writeAt_getPath_self p doc hfits hp
    rwa [hdoc] at h2
  rw [hmid]
  simp [removeArrayItem, harr2, herase, setOp, handleValueChange, hcopy, hw2,
    hcollapse, hself]

/-- Witness for C8 at a concrete input: a document with a one-element
array at `items`, appending then removing at the last index 1. -/
theorem c8_insert_remove_inverse_witness :
    jsonCopy (JValue.obj [("items", .arr [.num 7] [])]) =
      JValue.obj [("items", .arr [.num 7] [])] ∧
    pathFits (JValue.obj [("items", .arr [.num 7] [])]) [.fld "items"] = true ∧
    getPath (JValue.obj [("items", .arr [.num 7] [])]) [.fld "items"] =
      .arr [.num 7] [] ∧
    removeArrayItem
      (insertArrayItemWith (JValue.obj [("items", .arr [.num 7] [])])
        [.fld "items"] (.str "new"))
      [.fld "items"] 1 = JValue.obj [("items", .arr [.num 7] [])] :=
  ⟨rfl, rfl, rfl,
    c8_insert_remove_inverse (JValue.obj [("items", .arr [.num 7] [])])
      [.fld "items"] [.num 7] (.str "new") rfl rfl rfl (by simp)⟩

/-! ## Lemmas for the render-tree claim -/

theorem renderFields_isSome (env : SchemaEnv) (fuel : Nat)
    (ihb : ∀ s2, fuelOk env fuel s2 = true → ∀ d2 p2, 2 ≤ p2.length →
      (build env fuel s2 d2 p2).isSome = true) :
    ∀ (shape : List (String × Zod)) (objectData : JValue) (p1 : List Seg),
      fieldsFuelOk (fuelOk env fuel) shape = true → 1 ≤ p1.length →
      (renderFields (build env fuel) objectData p1 shape).isSome = true := by
  intro shape
  induction shape with
  | nil => intro objectData p1 _ _; simp [renderFields]
  | cons e rest ih =>
    obtain ⟨k, fs⟩ := e
    intro objectData p1 hok hp1
    simp only [fieldsFuelOk, Bool.and_eq_true] at hok
    have h1 := ihb fs hok.1 (jsGet objectData (.fld k)) (p1 ++ [.fld k])
      (by simp; omega)
    obtain ⟨n, hn⟩ := Option.isSome_iff_exists.mp h1
    have h2 := ih objectData p1 hok.2 hp1
    obtain ⟨ns, hns⟩ := Option.isSome_iff_exists.mp h2
    simp [renderFields, hn, hns]

theorem renderItems_isSome (env : SchemaEnv) (fuel : Nat) (e : Zod)
    (ihb : ∀ s2, fuelOk env fuel s2 = true → ∀ d2 p2, 2 ≤ p2.length →
      (build env fuel s2 d2 p2).isSome = true)
    (he : fuelOk env fuel e = true) :
    ∀ (es : List JValue) (i : Nat) (p1 : List Seg), 1 ≤ p1.length →
      (renderItems (fun item pp => build env fuel e item pp) p1 i es).isSome = true := by
  intro es
  induction es with
  | nil => intro i p1 _; simp [renderItems]
  | cons v rest ih =>
    intro i p1 hp1
    have h1 := ihb e he v (p1 ++ [.idx i]) (by simp; omega)
    obtain ⟨n, hn⟩ := Option.isSome_iff_exists.mp h1
    have h2 := ih (i+1) p1 hp1
    obtain ⟨ns, hns⟩ := Option.isSome_iff_exists.mp h2
    simp [renderItems, hn, hns]

theorem buildCore_isSome (env : SchemaEnv) (fuel : Nat)
    (ihb : ∀ s2, fuelOk env fuel s2 = true → ∀ d2 p2, 2 ≤ p2.length →
      (build env fuel s2 d2 p2).isSome = true)
    (t : Zod) (hok : fuelOk env (fuel+1) t = true) (d : JValue) (p : List Seg)
    (hp1 : 1 ≤ p.length) :
    (buildCore env (fuel+1) (build env fuel) t d p).isSome = true := by
  simp only [fuelOk] at hok
  cases hbase : getBaseType env (fuel+1) t with
  | none => rw [hbase] at hok; simp at hok
  | some base =>
    rw [hbase] at hok
    simp only [buildCore, hbase]
    cases base with
    | zobject shape =>
      obtain ⟨cs, hcs⟩ := Option.isSome_iff_exists.mp
        (renderFields_isSome env fuel ihb shape
          (match d with | .obj es => JValue.obj es | _ => JValue.obj []) p hok hp1)
      simp [hcs]
    | zarray e =>
      obtain ⟨its, hits⟩ := Option.isSome_iff_exists.mp
        (renderItems_isSome env fuel e ihb hok
          (match d with | .arr es _ => es | _ => []) 0 p hp1)
      simp [hits]
    | zstring => simp
    | znumber checks => simp
    | zdefault inner => simp
    | zlazy name => simp
    | zoptional inner => simp
    | zother nm => simp

/-- With a data-independent sufficient fuel bound, `build` always
produces a node, whatever the document: the total-function core of the
missing-data tolerance claim. -/
theorem buildTotal (env : SchemaEnv) : ∀ (fuel : Nat) (s : Zod),
    fuelOk env fuel s = true → ∀ (d : JValue) (p : List Seg), 2 ≤ p.length →
    (build env fuel s d p).isSome = true := by
  intro fuel
  induction fuel with
  | zero => intro s hok; simp [fuelOk] at hok
  | succ m ih =>
    intro s hok d p hp
    have hne : ¬ p.length = 1 := by omega
    simp only [build, if_neg hne]
    exact buildCore_isSome env m ih s hok d p (by omega)

/-- C9 (confirmed): the renderer is total.  At the application's entry
point (path `[activeTab]` on the full `ComplianceContentSchema`), `build`
produces a node tree for every document and every tab — unknown tabs
degrade to an error div, never a crash; rendering each tab of the empty
document produces a full tree in which every leaf shows absent data; and
an unsupported terminal shape (here `ZodOptional`, which `getBaseType`
does not unwrap) degrades to an "Unsupported field type" placeholder node
instead of failing the tree. -/
theorem c9_build_total_and_missing_data :
    (∀ (d : JValue) (tab : String),
      (build repoEnv 12 ComplianceContentSchema d [.fld tab]).isSome = true) ∧
    (∃ t, build repoEnv 12 ComplianceContentSchema .undef [.fld "general"] = some t ∧
      allLeavesAbsent t = true) ∧
    (∃ t, build repoEnv 12 ComplianceContentSchema .undef
      [.fld "lawsAndRegulations"] = some t ∧ allLeavesAbsent t = true) ∧
    (∃ t, build repoEnv 12 ComplianceContentSchema .undef
      [.fld "dataPoints"] = some t ∧ allLeavesAbsent t = true) ∧
    (∃ t, build repoEnv 12 ComplianceContentSchema .undef
      [.fld "threatsAndVulnerabilities"] = some t ∧ allLeavesAbsent t = true) ∧
    build repoEnv 12 (.zobject [("x", .zoptional .zstring)]) (.obj [])
      [.fld "a", .fld "b"] = some (.objNode [("x", .unsupported "ZodOptional")]) := by
  refine ⟨?_, ⟨_, rfl, rfl⟩, ⟨_, rfl, rfl⟩, ⟨_, rfl, rfl⟩, ⟨_, rfl, rfl⟩, rfl⟩
  intro d tab
  have key : build repoEnv 12 ComplianceContentSchema d [.fld tab] =
      match (match lookupField
          [("general", GeneralSchema),
           ("lawsAndRegulations", .zarray .zstring),
           ("dataPoints", .zarray DataPointSchema),
           ("threatsAndVulnerabilities", .zarray ThreatVulnerabilitySchema)] tab with
        | some t => some (Sum.inr t)
        | none => some (Sum.inl "Error: Schema not found for initial path.")) with
      | none => none
      | some (.inl msg) => some (RenderNode.errorNode msg)
      | some (.inr schemaToRender) =>
        buildCore repoEnv 12 (build repoEnv 11) schemaToRender d [.fld tab] := rfl
  rw [key]
  cases hl : lookupField
      [("general", GeneralSchema),
       ("lawsAndRegulations", .zarray .zstring),
       ("dataPoints", .zarray DataPointSchema),
       ("threatsAndVulnerabilities", .zarray ThreatVulnerabilitySchema)] tab with
  | none => rfl
  | some t =>
    show (buildCore repoEnv 12 (build repoEnv 11) t d [.fld tab]).isSome = true
    simp only [lookupField] at hl
    by_cases h1 : ("general" : String) = tab
    · rw [if_pos h1] at hl
      simp only [Option.some.injEq] at hl
      subst hl
      exact buildCore_isSome repoEnv 11 (buildTotal repoEnv 11) GeneralSchema rfl d
        [.fld tab] (by simp)
    · rw [if_neg h1] at hl
      by_cases h2 : ("lawsAndRegulations" : String) = tab
      · rw [if_pos h2] at hl
        simp only [Option.some.injEq] at hl
        subst hl
        exact buildCore_isSome repoEnv 11 (buildTotal repoEnv 11) (.zarray .zstring) rfl d
          [.fld tab] (by simp)
      · rw [if_neg h2] at hl
        by_cases h3 : ("dataPoints" : String) = tab
        · rw [if_pos h3] at hl
          simp only [Option.some.injEq] at hl
          subst hl
          exact buildCore_isSome repoEnv 11 (buildTotal repoEnv 11)
            (.zarray DataPointSchema) rfl d [.fld tab] (by simp)
        · rw [if_neg h3] at hl
          by_cases h4 : ("threatsAndVulnerabilities" : String) = tab
          · rw [if_pos h4] at hl
            simp only [Option.some.injEq] at hl
            subst hl
            exact buildCore_isSome repoEnv 11 (buildTotal repoEnv 11)
              (.zarray ThreatVulnerabilitySchema) rfl d [.fld tab] (by simp)
          · rw [if_neg h4] at hl
            simp [lookupField] at hl

/-! ## Lemmas for the immutability claim (heap model) -/

theorem hget_append (h ext : Heap) (r : Nat) (hr : r < h.length) :
    hget (h ++ ext) r = hget h r := by
  simp only [hget]
  rw [List.getElem?_append]
  simp [hr]

theorem hget_hset_ne (h : Heap) (r r2 : Nat) (c : HCell) (hne : r2 ≠ r) :
    hget (hset h r c) r2 = hget h r2 := by
  simp only [hget, hset]
  rw [List.getElem?_set_ne (by omega)]

theorem hset_length (h : Heap) (r : Nat) (c : HCell) :
    (hset h r c).length = h.length := by
  simp [hset]

theorem goodAbove_trivial (h : Heap) : goodAbove h.length h := by
  intro r c hr hg
  rw [hget, List.getElem?_eq_none hr] at hg
  nomatch hg

theorem objGetH_refGE (n : Nat) : ∀ (fields : List (String × HVal)) (k : String),
    (∀ kv ∈ fields, valRefGE n kv.2) → valRefGE n (objGetH fields k) := by
  intro fields
  induction fields with
  | nil => intro k _; simp [objGetH, valRefGE]
  | cons e rest ih =>
    obtain ⟨k1, v1⟩ := e
    intro k hf
    by_cases hk : k1 = k
    · simp only [objGetH, if_pos hk]
      exact hf (k1, v1) (by simp)
    · simp only [objGetH, if_neg hk]
      exact ih k fun kv hm => hf kv (by simp [hm])

theorem getD_refGE (n : Nat) (elems : List HVal) (i : Nat)
    (he : ∀ v ∈ elems, valRefGE n v) : valRefGE n (elems.getD i .hundef) := by
  cases hx : elems[i]? with
  | none => simp [List.getD_eq_getElem?_getD, hx, valRefGE]
  | some x =>
    simp only [List.getD_eq_getElem?_getD, hx, Option.getD_some]
    exact he x (List.getElem?_mem hx)

theorem objSetH_refGE (n : Nat) : ∀ (fields : List (String × HVal)) (k : String) (v : HVal),
    (∀ kv ∈ fields, valRefGE n kv.2) → valRefGE n v →
    ∀ kv ∈ objSetH fields k v, valRefGE n kv.2 := by
  intro fields
  induction fields with
  | nil =>
    intro k v _ hv kv hm
    simp [objSetH] at hm
    simp [hm, hv]
  | cons e rest ih =>
    obtain ⟨k1, v1⟩ := e
    intro k v hf hv kv hm
    by_cases hk : k1 = k
    · simp only [objSetH, if_pos hk] at hm
      rcases List.mem_cons.mp hm with h1 | h1
      · simp [h1, hv]
      · exact hf kv (by simp [h1])
    · simp only [objSetH, if_neg hk] at hm
      rcases List.mem_cons.mp hm with h1 | h1
      · exact hf kv (by simp [h1])
      · exact ih k v (fun kv2 hm2 => hf kv2 (by simp [hm2])) hv kv h1

theorem set_refGE (n : Nat) : ∀ (elems : List HVal) (i : Nat) (v : HVal),
    (∀ x ∈ elems, valRefGE n x) → valRefGE n v →
    ∀ x ∈ elems.set i v, valRefGE n x := by
  intro elems
  induction elems with
  | nil => intro i v _ _ x hm; simp at hm
  | cons e rest ih =>
    intro i v he hv x hm
    cases i with
    | zero =>
      simp only [List.set_cons_zero] at hm
      rcases List.mem_cons.mp hm with h1 | h1
      · simp [h1, hv]
      · exact he x (by simp [h1])
    | succ m =>
      simp only [List.set_cons_succ] at hm
      rcases List.mem_cons.mp hm with h1 | h1
      · exact he x (by simp [h1])
      · exact ih m v (fun y hy => he y (by simp [hy])) hv x h1

theorem arrSetH_refGE (n : Nat) (elems : List HVal) (i : Nat) (v : HVal)
    (he : ∀ x ∈ elems, valRefGE n x) (hv : valRefGE n v) :
    ∀ x ∈ arrSetH elems i v, valRefGE n x := by
  intro x hm
  unfold arrSetH at hm
  split at hm
  · exact set_refGE n elems i v he hv x hm
  · rcases List.mem_append.mp hm with h1 | h1
    · rcases List.mem_append.mp h1 with h2 | h2
      · exact he x h2
      · rw [List.eq_of_mem_replicate h2]; simp [valRefGE]
    · simp at h1; simp [h1, hv]

theorem arrResizeH_refGE (n : Nat) (elems : List HVal) (m : Nat)
    (he : ∀ x ∈ elems, valRefGE n x) :
    ∀ x ∈ arrResizeH elems m, valRefGE n x := by
  intro x hm
  unfold arrResizeH at hm
  split at hm
  · exact he x (List.take_subset m elems hm)
  · rcases List.mem_append.mp hm with h1 | h1
    · exact he x h1
    · rw [List.eq_of_mem_replicate h1]; simp [valRefGE]

theorem goodAbove_append (n : Nat) (h : Heap) (c : HCell)
    (hg : goodAbove n h) (hc : cellGE n c) : goodAbove n (h ++ [c]) := by
  intro r cc hr hget2
  by_cases hlt : r < h.length
  · rw [hget_append h [c] r hlt] at hget2
    exact hg r cc hr hget2
  · rw [hget, List.getElem?_append_right (by omega)] at hget2
    cases hz : r - h.length with
    | zero =>
      rw [hz] at hget2
      simp at hget2
      rw [← hget2]
      exact hc
    | succ m =>
      rw [hz] at hget2
      simp at hget2

theorem goodAbove_hset (n : Nat) (h : Heap) (r : Nat) (c : HCell)
    (hg : goodAbove n h) (hc : cellGE n c) : goodAbove n (hset h r c) := by
  intro r2 cc hr2 hgot
  by_cases he : r2 = r
  · subst he
    by_cases hlt : r2 < h.length
    · rw [hget, hset, List.getElem?_set_eq_of_lt c hlt] at hgot
      simp at hgot
      rw [← hgot]
      exact hc
    · rw [hset, List.set_eq_of_length_le (by omega)] at hgot
      exact hg r2 cc hr2 hgot
  · rw [hget_hset_ne h r r2 c he] at hgot
    exact hg r2 cc hr2 hgot

theorem hRead_refGE (n : Nat) (h : Heap) (r : Nat) (k : Seg)
    (hg : goodAbove n h) (hr : n ≤ r) : valRefGE n (hRead h r k) := by
  simp only [hRead]
  cases hc : hget h r with
  | none => simp [valRefGE]
  | some cell =>
    have hcell := hg r cell hr hc
    cases cell with
    | cobj fields => exact objGetH_refGE n fields k.keyStr hcell
    | carr elems props =>
      cases k with
      | idx i => exact getD_refGE n elems i hcell.1
      | fld s =>
        by_cases hs : s = "length"
        · simp [hs, valRefGE]
        · simp only [if_neg hs]
          exact objGetH_refGE n props s hcell.2

theorem hWrite_good (n : Nat) (h : Heap) (r : Nat) (k : Seg) (v : HVal) (h2 : Heap)
    (hr : n ≤ r) (hg : goodAbove n h) (hv : valRefGE n v)
    (hw : hWrite h r k v = some h2) :
    (∀ r2, r2 < n → hget h2 r2 = hget h r2) ∧ goodAbove n h2 ∧ h.length ≤ h2.length := by
  simp only [hWrite] at hw
  cases hc : hget h r with
  | none => rw [hc] at hw; nomatch hw
  | some cell =>
    rw [hc] at hw
    have hcell := hg r cell hr hc
    cases cell with
    | cobj fields =>
      simp only [Option.some.injEq] at hw
      subst hw
      refine ⟨fun r2 hr2 => hget_hset_ne h r r2 _ (by omega), ?_, by simp [hset_length]⟩
      exact goodAbove_hset n h r _ hg (objSetH_refGE n fields k.keyStr v hcell hv)
    | carr elems props =>
      cases k with
      | idx i =>
        simp only [Option.some.injEq] at hw
        subst hw
        refine ⟨fun r2 hr2 => hget_hset_ne h r r2 _ (by omega), ?_, by simp [hset_length]⟩
        exact goodAbove_hset n h r _ hg
          ⟨arrSetH_refGE n elems i v hcell.1 hv, hcell.2⟩
      | fld s =>
        dsimp only at hw
        by_cases hs : s = "length"
        · subst hs
          rw [if_pos rfl] at hw
          cases v with
          | hnum a =>
            dsimp only at hw
            split at hw
            · simp only [Option.some.injEq] at hw
              subst hw
              refine ⟨fun r2 hr2 => hget_hset_ne h r r2 _ (by omega), ?_,
                by simp [hset_length]⟩
              exact goodAbove_hset n h r _ hg
                ⟨arrResizeH_refGE n elems a.toNat hcell.1, hcell.2⟩
            · nomatch hw
          | hundef => simp at hw
          | hnull => simp at hw
          | hstr t => simp at hw
          | href r3 => simp at hw
        · rw [if_neg hs] at hw
          simp only [Option.some.injEq] at hw
          subst hw
          refine ⟨fun r2 hr2 => hget_hset_ne h r r2 _ (by omega), ?_, by simp [hset_length]⟩
          exact goodAbove_hset n h r _ hg
            ⟨hcell.1, objSetH_refGE n props s v hcell.2 hv⟩

/-- The navigation loop of `handleValueChange` only allocates fresh cells
and writes into cells of the fresh region: every cell below the
watermark `n` (in particular every cell of the original document) is
untouched, the fresh region stays self-contained, and the final
`parentLevel` lives in the fresh region. -/
theorem hvcLoop_preserves (n : Nat) : ∀ (p : List Seg) (h : Heap) (cur : HVal),
    goodAbove n h → n ≤ h.length → valRefGE n cur →
    (∀ r, r < n → hget (hvcLoop h cur p).1 r = hget h r) ∧
    goodAbove n (hvcLoop h cur p).1 ∧ n ≤ (hvcLoop h cur p).1.length ∧
    ∀ pv, (hvcLoop h cur p).2 = some pv → valRefGE n pv := by
  intro p
  induction p with
  | nil =>
    intro h cur hg hl hc
    exact ⟨fun r _ => rfl, hg, hl, fun pv hpv => by
      simp only [hvcLoop, Option.some.injEq] at hpv
      rw [← hpv]; exact hc⟩
  | cons k p2 ih =>
    cases p2 with
    | nil =>
      intro h cur hg hl hc
      exact ⟨fun r _ => rfl, hg, hl, fun pv hpv => by
        simp only [hvcLoop, Option.some.injEq] at hpv
        rw [← hpv]; exact hc⟩
    | cons r2 rest =>
      intro h cur hg hl hc
      cases cur with
      | hundef => exact ⟨fun r _ => rfl, hg, hl, fun pv hpv => by simp [hvcLoop] at hpv⟩
      | hnull => exact ⟨fun r _ => rfl, hg, hl, fun pv hpv => by simp [hvcLoop] at hpv⟩
      | hstr s => exact ⟨fun r _ => rfl, hg, hl, fun pv hpv => by simp [hvcLoop] at hpv⟩
      | hnum a => exact ⟨fun r _ => rfl, hg, hl, fun pv hpv => by simp [hvcLoop] at hpv⟩
      | href cr =>
        have hcr : n ≤ cr := hc
        have hchildGE := hRead_refGE n h cr k hg hcr
        cases hchild : hRead h cr k with
        | hstr s =>
          have hrec := ih h (.hstr s) hg hl (by simp [valRefGE])
          simpa only [hvcLoop, hchild] using hrec
        | hnum a =>
          have hrec := ih h (.hnum a) hg hl (by simp [valRefGE])
          simpa only [hvcLoop, hchild] using hrec
        | href r3 =>
          rw [hchild] at hchildGE
          have hrec := ih h (.href r3) hg hl hchildGE
          simpa only [hvcLoop, hchild] using hrec
        | hundef =>
          simp only [hvcLoop, hchild, halloc]
          have hcell : cellGE n (vivifyCellH r2) := by
            cases r2 <;> simp [vivifyCellH, cellGE]
          have hg1 : goodAbove n (h ++ [vivifyCellH r2]) :=
            goodAbove_append n h _ hg hcell
          cases hwr : hWrite (h ++ [vivifyCellH r2]) cr k (.href h.length) with
          | none =>
            simp only [hwr]
            refine ⟨fun r hr => hget_append h _ r (by omega), hg1, by simp; omega,
              fun pv hpv => by nomatch hpv⟩
          | some h2 =>
            simp only [hwr]
            have hwg := hWrite_good n _ cr k (.href h.length) h2 hcr hg1
              (by simp [valRefGE]; omega) hwr
            have hl2 : n ≤ h2.length := by
              have := hwg.2.2
              simp at this
              omega
            have hrec := ih h2 (.href h.length) hwg.2.1 hl2 (by simp [valRefGE]; omega)
            refine ⟨?_, hrec.2.1, hrec.2.2.1, hrec.2.2.2⟩
            intro r hr
            rw [hrec.1 r hr, hwg.1 r hr, hget_append h _ r (by omega)]
        | hnull =>
          simp only [hvcLoop, hchild, halloc]
          have hcell : cellGE n (vivifyCellH r2) := by
            cases r2 <;> simp [vivifyCellH, cellGE]
          have hg1 : goodAbove n (h ++ [vivifyCellH r2]) :=
            goodAbove_append n h _ hg hcell
          cases hwr : hWrite (h ++ [vivifyCellH r2]) cr k (.href h.length) with
          | none =>
            simp only [hwr]
            refine ⟨fun r hr => hget_append h _ r (by omega), hg1, by simp; omega,
              fun pv hpv => by nomatch hpv⟩
          | some h2 =>
            simp only [hwr]
            have hwg := hWrite_good n _ cr k (.href h.length) h2 hcr hg1
              (by simp [valRefGE]; omega) hwr
            have hl2 : n ≤ h2.length := by
              have := hwg.2.2
              simp at this
              omega
            have hrec := ih h2 (.href h.length) hwg.2.1 hl2 (by simp [valRefGE]; omega)
            refine ⟨?_, hrec.2.1, hrec.2.2.1, hrec.2.2.2⟩
            intro r hr
            rw [hrec.1 r hr, hwg.1 r hr, hget_append h _ r (by omega)]

/-- The JSON deep copy of a property list only appends to the heap, keeps
the fresh region self-contained, and yields fresh-region references. -/
theorem copyFieldsH_good (n : Nat) (cp : Heap → HVal → Option (Heap × HVal))
    (hcp : ∀ (h : Heap) (v : HVal) (h1 : Heap) (v1 : HVal), n ≤ h.length →
      goodAbove n h → cp h v = some (h1, v1) →
      (∃ ext, h1 = h ++ ext) ∧ goodAbove n h1 ∧ valRefGE n v1) :
    ∀ (fields : List (String × HVal)) (h h1 : Heap) (fs : List (String × HVal)),
    n ≤ h.length → goodAbove n h → copyFieldsH cp h fields = some (h1, fs) →
    (∃ ext, h1 = h ++ ext) ∧ goodAbove n h1 ∧ ∀ kv ∈ fs, valRefGE n kv.2 := by
  intro fields
  induction fields with
  | nil =>
    intro h h1 fs hl hg hc
    simp only [copyFieldsH, Option.some.injEq, Prod.mk.injEq] at hc
    obtain ⟨he, hf⟩ := hc
    subst he; subst hf
    exact ⟨⟨[], by simp⟩, hg, by simp⟩
  | cons kv rest ih =>
    obtain ⟨k, v⟩ := kv
    intro h h1 fs hl hg hc
    simp only [copyFieldsH] at hc
    by_cases hv : v = HVal.hundef
    · rw [if_pos hv] at hc
      exact ih h h1 fs hl hg hc
    · rw [if_neg hv] at hc
      cases hcv : cp h v with
      | none => rw [hcv] at hc; nomatch hc
      | some pr =>
        obtain ⟨ha, va⟩ := pr
        rw [hcv] at hc
        dsimp only at hc
        obtain ⟨⟨ext1, hext1⟩, hga, hva⟩ := hcp h v ha va hl hg hcv
        have hla : n ≤ ha.length := by
          rw [hext1]; simp only [List.length_append]; omega
        cases hcr : copyFieldsH cp ha rest with
        | none => rw [hcr] at hc; nomatch hc
        | some pr2 =>
          obtain ⟨hb, vs⟩ := pr2
          rw [hcr] at hc
          simp only [Option.some.injEq, Prod.mk.injEq] at hc
          obtain ⟨he, hf⟩ := hc
          subst he; subst hf
          obtain ⟨⟨ext2, hext2⟩, hgb, hvs⟩ := ih ha hb vs hla hga hcr
          refine ⟨⟨ext1 ++ ext2, by rw [hext2, hext1, List.append_assoc]⟩, hgb, ?_⟩
          intro kv2 hm
          rcases List.mem_cons.mp hm with hm1 | hm2
          · rw [hm1]; exact hva
          · exact hvs kv2 hm2

/-- The JSON deep copy of an element list only appends to the heap, keeps
the fresh region self-contained, and yields fresh-region references
(`undefined` elements become `null`). -/
theorem copyElemsH_good (n : Nat) (cp : Heap → HVal → Option (Heap × HVal))
    (hcp : ∀ (h : Heap) (v : HVal) (h1 : Heap) (v1 : HVal), n ≤ h.length →
      goodAbove n h → cp h v = some (h1, v1) →
      (∃ ext, h1 = h ++ ext) ∧ goodAbove n h1 ∧ valRefGE n v1) :
    ∀ (elems : List HVal) (h h1 : Heap) (es : List HVal),
    n ≤ h.length → goodAbove n h → copyElemsH cp h elems = some (h1, es) →
    (∃ ext, h1 = h ++ ext) ∧ goodAbove n h1 ∧ ∀ v ∈ es, valRefGE n v := by
  intro elems
  induction elems with
  | nil =>
    intro h h1 es hl hg hc
    simp only [copyElemsH, Option.some.injEq, Prod.mk.injEq] at hc
    obtain ⟨he, hf⟩ := hc
    subst he; subst hf
    exact ⟨⟨[], by simp⟩, hg, by simp⟩
  | cons v rest ih =>
    intro h h1 es hl hg hc
    simp only [copyElemsH] at hc
    by_cases hv : v = HVal.hundef
    · rw [if_pos hv] at hc
      cases hcr : copyElemsH cp h rest with
      | none => rw [hcr] at hc; nomatch hc
      | some pr =>
        obtain ⟨hb, vs⟩ := pr
        rw [hcr] at hc
        simp only [Option.some.injEq, Prod.mk.injEq] at hc
        obtain ⟨he, hf⟩ := hc
        subst he; subst hf
        obtain ⟨hext, hgb, hvs⟩ := ih h hb vs hl hg hcr
        refine ⟨hext, hgb, ?_⟩
        intro v2 hm
        rcases List.mem_cons.mp hm with hm1 | hm2
        · rw [hm1]; exact True.intro
        · exact hvs v2 hm2
    · rw [if_neg hv] at hc
      cases hcv : cp h v with
      | none => rw [hcv] at hc; nomatch hc
      | some pr =>
        obtain ⟨ha, va⟩ := pr
        rw [hcv] at hc
        dsimp only at hc
        obtain ⟨⟨ext1, hext1⟩, hga, hva⟩ := hcp h v ha va hl hg hcv
        have hla : n ≤ ha.length := by
          rw [hext1]; simp only [List.length_append]; omega
        cases hcr : copyElemsH cp ha rest with
        | none => rw [hcr] at hc; nomatch hc
        | some pr2 =>
          obtain ⟨hb, vs⟩ := pr2
          rw [hcr] at hc
          simp only [Option.some.injEq, Prod.mk.injEq] at hc
          obtain ⟨he, hf⟩ := hc
          subst he; subst hf
          obtain ⟨⟨ext2, hext2⟩, hgb, hvs⟩ := ih ha hb vs hla hga hcr
          refine ⟨⟨ext1 ++ ext2, by rw [hext2, hext1, List.append_assoc]⟩, hgb, ?_⟩
          intro v2 hm
          rcases List.mem_cons.mp hm with hm1 | hm2
          · rw [hm1]; exact hva
          · exact hvs v2 hm2

/-- The JSON deep copy (`JSON.parse(JSON.stringify(fullData))`) only
appends fresh cells to the heap, the fresh region is self-contained, and
the returned value references only the fresh region. -/
theorem copyValH_good (n : Nat) : ∀ (fuel : Nat) (h : Heap) (v : HVal)
    (h1 : Heap) (v1 : HVal), n ≤ h.length → goodAbove n h →
    copyValH fuel h v = some (h1, v1) →
    (∃ ext, h1 = h ++ ext) ∧ goodAbove n h1 ∧ valRefGE n v1 := by
  intro fuel
  induction fuel with
  | zero => intro h v h1 v1 _ _ hc; nomatch hc
  | succ fuel ih =>
    intro h v h1 v1 hl hg hc
    cases v with
    | hundef =>
      simp only [copyValH, Option.some.injEq, Prod.mk.injEq] at hc
      obtain ⟨he, hv1⟩ := hc
      subst he; subst hv1
      exact ⟨⟨[], by simp⟩, hg, True.intro⟩
    | hnull =>
      simp only [copyValH, Option.some.injEq, Prod.mk.injEq] at hc
      obtain ⟨he, hv1⟩ := hc
      subst he; subst hv1
      exact ⟨⟨[], by simp⟩, hg, True.intro⟩
    | hstr s =>
      simp only [copyValH, Option.some.injEq, Prod.mk.injEq] at hc
      obtain ⟨he, hv1⟩ := hc
      subst he; subst hv1
      exact ⟨⟨[], by simp⟩, hg, True.intro⟩
    | hnum a =>
      simp only [copyValH, Option.some.injEq, Prod.mk.injEq] at hc
      obtain ⟨he, hv1⟩ := hc
      subst he; subst hv1
      exact ⟨⟨[], by simp⟩, hg, True.intro⟩
    | href r =>
      simp only [copyValH] at hc
      cases hcell : hget h r with
      | none => rw [hcell] at hc; nomatch hc
      | some cell =>
        rw [hcell] at hc
        cases cell with
        | cobj fields =>
          dsimp only at hc
          cases hcf : copyFieldsH (copyValH fuel) h fields with
          | none => rw [hcf] at hc; nomatch hc
          | some pr =>
            obtain ⟨ha, fs⟩ := pr
            rw [hcf] at hc
            dsimp only at hc
            simp only [halloc, Option.some.injEq, Prod.mk.injEq] at hc
            obtain ⟨he, hv1⟩ := hc
            obtain ⟨⟨ext1, hext1⟩, hga, hfs⟩ :=
              copyFieldsH_good n (copyValH fuel) ih fields h ha fs hl hg hcf
            subst he; subst hv1
            have hlen : n ≤ ha.length := by
              rw [hext1]; simp only [List.length_append]; omega
            exact ⟨⟨ext1 ++ [HCell.cobj fs], by rw [hext1, List.append_assoc]⟩,
              goodAbove_append n ha _ hga hfs, hlen⟩
        | carr elems props =>
          dsimp only at hc
          cases hce : copyElemsH (copyValH fuel) h elems with
          | none => rw [hce] at hc; nomatch hc
          | some pr =>
            obtain ⟨ha, es⟩ := pr
            rw [hce] at hc
            dsimp only at hc
            simp only [halloc, Option.some.injEq, Prod.mk.injEq] at hc
            obtain ⟨he, hv1⟩ := hc
            obtain ⟨⟨ext1, hext1⟩, hga, hes⟩ :=
              copyElemsH_good n (copyValH fuel) ih elems h ha es hl hg hce
            subst he; subst hv1
            have hlen : n ≤ ha.length := by
              rw [hext1]; simp only [List.length_append]; omega
            exact ⟨⟨ext1 ++ [HCell.carr es []], by rw [hext1, List.append_assoc]⟩,
              goodAbove_append n ha _ hga ⟨hes, by simp⟩, hlen⟩

/-- A write into a cell at or above the watermark leaves every cell below
the watermark unchanged and never shrinks the heap (no self-containment
hypotheses needed). -/
theorem hWrite_preserves (n : Nat) (h : Heap) (r : Nat) (k : Seg) (v : HVal)
    (h2 : Heap) (hr : n ≤ r) (hw : hWrite h r k v = some h2) :
    (∀ r2, r2 < n → hget h2 r2 = hget h r2) ∧ h.length ≤ h2.length := by
  simp only [hWrite] at hw
  cases hc : hget h r with
  | none => rw [hc] at hw; nomatch hw
  | some cell =>
    rw [hc] at hw
    cases cell with
    | cobj fields =>
      simp only [Option.some.injEq] at hw
      subst hw
      exact ⟨fun r2 hr2 => hget_hset_ne h r r2 _ (by omega), by simp [hset_length]⟩
    | carr elems props =>
      cases k with
      | idx i =>
        simp only [Option.some.injEq] at hw
        subst hw
        exact ⟨fun r2 hr2 => hget_hset_ne h r r2 _ (by omega), by simp [hset_length]⟩
      | fld s =>
        dsimp only at hw
        by_cases hs : s = "length"
        · subst hs
          rw [if_pos rfl] at hw
          cases v with
          | hnum a =>
            dsimp only at hw
            split at hw
            · simp only [Option.some.injEq] at hw
              subst hw
              exact ⟨fun r2 hr2 => hget_hset_ne h r r2 _ (by omega),
                by simp [hset_length]⟩
            · nomatch hw
          | hundef => simp at hw
          | hnull => simp at hw
          | hstr t => simp at hw
          | href r3 => simp at hw
        · rw [if_neg hs] at hw
          simp only [Option.some.injEq] at hw
          subst hw
          exact ⟨fun r2 hr2 => hget_hset_ne h r r2 _ (by omega), by simp [hset_length]⟩

/-- `handleValueChange` never touches any cell of the pre-call heap: the
deep copy only appends fresh cells, the navigation loop writes only into
the fresh region, and the final assignment lands in the fresh parent. -/
theorem handleValueChangeH_preserves (fuel : Nat) (h : Heap) (fullData : HVal)
    (p : List Seg) (value : HVal) (h2 : Heap) (pub : Option HVal)
    (hres : handleValueChangeH fuel h fullData p value = some (h2, pub)) :
    ∀ r, r < h.length → hget h2 r = hget h r := by
  simp only [handleValueChangeH] at hres
  cases hcv : copyValH fuel h fullData with
  | none => rw [hcv] at hres; nomatch hres
  | some pr =>
    obtain ⟨hc, newData⟩ := pr
    rw [hcv] at hres
    dsimp only at hres
    obtain ⟨⟨ext, hext⟩, hgc, hnd⟩ := copyValH_good h.length fuel h fullData hc newData
      le_rfl (goodAbove_trivial h) hcv
    have hlc : h.length ≤ hc.length := by
      rw [hext]; simp only [List.length_append]; omega
    have hpre1 : ∀ r, r < h.length → hget hc r = hget h r := fun r hr => by
      rw [hext]; exact hget_append h ext r hr
    have hloop := hvcLoop_preserves h.length p hc newData hgc hlc hnd
    cases hvc : hvcLoop hc newData p with
    | mk h2a par =>
      rw [hvc] at hres hloop
      dsimp only at hres hloop
      cases par with
      | none =>
        simp only [Option.some.injEq, Prod.mk.injEq] at hres
        obtain ⟨he, _⟩ := hres
        subst he
        intro r hr
        rw [hloop.1 r hr, hpre1 r hr]
      | some parent =>
        cases parent with
        | href pr2 =>
          have hge : h.length ≤ pr2 := hloop.2.2.2 (HVal.href pr2) rfl
          dsimp only at hres
          split at hres
          · rename_i h3 heq
            simp only [Option.some.injEq, Prod.mk.injEq] at hres
            obtain ⟨he, _⟩ := hres
            subst he
            have hwp := hWrite_preserves h.length h2a pr2 _ value _ hge heq
            intro r hr
            rw [hwp.1 r hr, hloop.1 r hr, hpre1 r hr]
          · simp only [Option.some.injEq, Prod.mk.injEq] at hres
            obtain ⟨he, _⟩ := hres
            subst he
            intro r hr
            rw [hloop.1 r hr, hpre1 r hr]
        | hundef =>
          simp only [Option.some.injEq, Prod.mk.injEq] at hres
          obtain ⟨he, _⟩ := hres
          subst he
          intro r hr
          rw [hloop.1 r hr, hpre1 r hr]
        | hnull =>
          simp only [Option.some.injEq, Prod.mk.injEq] at hres
          obtain ⟨he, _⟩ := hres
          subst he
          intro r hr
          rw [hloop.1 r hr, hpre1 r hr]
        | hstr s =>
          simp only [Option.some.injEq, Prod.mk.injEq] at hres
          obtain ⟨he, _⟩ := hres
          subst he
          intro r hr
          rw [hloop.1 r hr, hpre1 r hr]
        | hnum a =>
          simp only [Option.some.injEq, Prod.mk.injEq] at hres
          obtain ⟨he, _⟩ := hres
          subst he
          intro r hr
          rw [hloop.1 r hr, hpre1 r hr]

/-- Snapshot congruence for property lists: snapshot functions agreeing
on a domain agree on every property list whose values lie in it. -/
theorem snapFields_congr (s1 s2 : HVal → Option JValue) (P : HVal → Prop)
    (hs : ∀ v, P v → s1 v = s2 v) :
    ∀ (fields : List (String × HVal)), (∀ kv ∈ fields, P kv.2) →
    snapFieldsH s1 fields = snapFieldsH s2 fields := by
  intro fields
  induction fields with
  | nil => intro _; rfl
  | cons kv rest ih =>
    intro hp
    obtain ⟨k, v⟩ := kv
    have hv : P v := hp (k, v) (List.mem_cons_self _ _)
    simp only [snapFieldsH]
    rw [hs v hv, ih (fun kv2 hm => hp kv2 (List.mem_cons_of_mem _ hm))]

/-- Snapshot congruence for element lists. -/
theorem snapElems_congr (s1 s2 : HVal → Option JValue) (P : HVal → Prop)
    (hs : ∀ v, P v → s1 v = s2 v) :
    ∀ (elems : List HVal), (∀ v ∈ elems, P v) →
    snapElemsH s1 elems = snapElemsH s2 elems := by
  intro elems
  induction elems with
  | nil => intro _; rfl
  | cons v rest ih =>
    intro hp
    have hv : P v := hp v (List.mem_cons_self _ _)
    simp only [snapElemsH]
    rw [hs v hv, ih (fun v2 hm => hp v2 (List.mem_cons_of_mem _ hm))]

/-- The snapshot of a value referencing below the watermark reads only
cells below the watermark (on a heap whose low region is closed under
references), so two heaps agreeing there snapshot it identically. -/
theorem snapshot_agree (n : Nat) (h hb : Heap)
    (hpres : ∀ r, r < n → hget hb r = hget h r)
    (hwf : ∀ r c, r < n → hget h r = some c → cellRefsBelow n c = true) :
    ∀ (sfuel : Nat) (v : HVal), valRefBelow n v = true →
    snapshotH sfuel hb v = snapshotH sfuel h v := by
  intro sfuel
  induction sfuel with
  | zero => intro v _; rfl
  | succ sfuel ih =>
    intro v hv
    cases v with
    | hundef => rfl
    | hnull => rfl
    | hstr s => rfl
    | hnum a => rfl
    | href r =>
      have hr : r < n := by simpa [valRefBelow] using hv
      simp only [snapshotH, hpres r hr]
      cases hc : hget h r with
      | none => rfl
      | some cell =>
        have hcell := hwf r cell hr hc
        cases cell with
        | cobj fields =>
          have hfs : ∀ kv ∈ fields, valRefBelow n kv.2 = true := by
            simpa [cellRefsBelow, List.all_eq_true] using hcell
          dsimp only
          rw [snapFields_congr (snapshotH sfuel hb) (snapshotH sfuel h)
            (fun w => valRefBelow n w = true) ih fields hfs]
        | carr elems props =>
          simp only [cellRefsBelow, Bool.and_eq_true, List.all_eq_true] at hcell
          dsimp only
          rw [snapElems_congr (snapshotH sfuel hb) (snapshotH sfuel h)
            (fun w => valRefBelow n w = true) ih elems hcell.1,
            snapFields_congr (snapshotH sfuel hb) (snapshotH sfuel h)
            (fun w => valRefBelow n w = true) ih props hcell.2]

/-- In a well-formed heap every stored cell references strictly below the
heap length. -/
theorem wfHeap_spec (h : Heap) (hwf : wfHeap h = true) :
    ∀ r c, r < h.length → hget h r = some c → cellRefsBelow h.length c = true := by
  intro r c _ hc
  simp only [wfHeap, List.all_eq_true] at hwf
  simp only [hget] at hc
  exact hwf c (List.getElem?_mem hc)

/-- C3: `set` (handleValueChange), `insertArrayItem` and `removeArrayItem`
never mutate their document argument.  On a well-formed heap holding the
document, no cell of the pre-call heap is changed by any of the three
operations, so a structural snapshot of the original document taken after
the call (at any depth bound) equals the snapshot taken before: the edits
go into a fresh deep copy and freshly allocated cells only. -/
theorem c3_ops_never_mutate (fuel : Nat) (h : Heap) (docVal : HVal)
    (p : List Seg) (value newItem : HVal) (index : Nat)
    (hwf : wfHeap h = true) (hdoc : valRefBelow h.length docVal = true) :
    (∀ h2 pub, handleValueChangeH fuel h docVal p value = some (h2, pub) →
      ∀ sfuel, snapshotH sfuel h2 docVal = snapshotH sfuel h docVal) ∧
    (∀ h2 pub, insertArrayItemH fuel h docVal p newItem = some (h2, pub) →
      ∀ sfuel, snapshotH sfuel h2 docVal = snapshotH sfuel h docVal) ∧
    (∀ h2 pub, removeArrayItemH fuel h docVal p index = some (h2, pub) →
      ∀ sfuel, snapshotH sfuel h2 docVal = snapshotH sfuel h docVal) := by
  have snapOf : ∀ h2 : Heap, (∀ r, r < h.length → hget h2 r = hget h r) →
      ∀ sfuel, snapshotH sfuel h2 docVal = snapshotH sfuel h docVal := by
    intro h2 hpres sfuel
    exact snapshot_agree h.length h h2 hpres (wfHeap_spec h hwf) sfuel docVal hdoc
  refine ⟨?_, ?_, ?_⟩
  · intro h2 pub hres
    exact snapOf h2 (handleValueChangeH_preserves fuel h docVal p value h2 pub hres)
  · intro h2 pub hres
    simp only [insertArrayItemH, halloc] at hres
    have hp := handleValueChangeH_preserves fuel _ docVal p _ h2 pub hres
    refine snapOf h2 (fun r hr => ?_)
    rw [hp r (by simp only [List.length_append]; omega), hget_append h _ r hr]
  · intro h2 pub hres
    simp only [removeArrayItemH, halloc] at hres
    have hp := handleValueChangeH_preserves fuel _ docVal p _ h2 pub hres
    refine snapOf h2 (fun r hr => ?_)
    rw [hp r (by simp only [List.length_append]; omega), hget_append h _ r hr]

/-- Witness for C3 at a concrete input: a one-cell heap holding the
document `{"a": 1}`, with the edit `set(doc, ["a"], 2)`, an insert of `3`
and a removal at index `0`, all at the address `["a"]`; the hypotheses
hold, the conclusion is given by the theorem, and the set operation
really does publish (it is not vacuous). -/
theorem c3_ops_never_mutate_witness :
    wfHeap [HCell.cobj [("a", HVal.hnum 1)]] = true ∧
    valRefBelow (List.length [HCell.cobj [("a", HVal.hnum 1)]]) (HVal.href 0) = true ∧
    ((∀ h2 pub, handleValueChangeH 5 [HCell.cobj [("a", HVal.hnum 1)]] (HVal.href 0)
        [Seg.fld "a"] (HVal.hnum 2) = some (h2, pub) →
      ∀ sfuel, snapshotH sfuel h2 (HVal.href 0) =
        snapshotH sfuel [HCell.cobj [("a", HVal.hnum 1)]] (HVal.href 0)) ∧
     (∀ h2 pub, insertArrayItemH 5 [HCell.cobj [("a", HVal.hnum 1)]] (HVal.href 0)
        [Seg.fld "a"] (HVal.hnum 3) = some (h2, pub) →
      ∀ sfuel, snapshotH sfuel h2 (HVal.href 0) =
        snapshotH sfuel [HCell.cobj [("a", HVal.hnum 1)]] (HVal.href 0)) ∧
     (∀ h2 pub, removeArrayItemH 5 [HCell.cobj [("a", HVal.hnum 1)]] (HVal.href 0)
        [Seg.fld "a"] 0 = some (h2, pub) →
      ∀ sfuel, snapshotH sfuel h2 (HVal.href 0) =
        snapshotH sfuel [HCell.cobj [("a", HVal.hnum 1)]] (HVal.href 0))) ∧
    handleValueChangeH 5 [HCell.cobj [("a", HVal.hnum 1)]] (HVal.href 0)
        [Seg.fld "a"] (HVal.hnum 2) =
      some ([HCell.cobj [("a", HVal.hnum 1)], HCell.cobj [("a", HVal.hnum 2)]],
        some (HVal.href 1)) :=
  ⟨by decide, by decide,
   c3_ops_never_mutate 5 [HCell.cobj [("a", HVal.hnum 1)]] (HVal.href 0)
     [Seg.fld "a"] (HVal.hnum 2) (HVal.hnum 3) 0 (by decide) (by decide),
   by decide⟩
